import Mathlib

/-!
Verification of `src/lib/utils/sanitize-html.js`.

The sanitizer walks the DOM tree produced by an external HTML parser
(`DOMParser`, an external collaborator), classifies every node below
`doc.body`, filters attributes of kept nodes, normalizes links, and then
applies the queued removals (forbidden subtrees first, then unwrapped
tags).  We embed the parsed document as a rooted ordered tree of text and
element nodes.  Every node carries a numeric identity (`id`), playing the
role of JavaScript object identity: the removal queues of the source hold
node references, which we model as ids.  Attributes are an ordered list
of name/value pairs; the HTML parser guarantees unique, lowercased
attribute names per element, which we carry as an explicit
well-formedness predicate where a proof needs it.

String operations of the source (`toLowerCase`, `startsWith`, `slice`)
are modelled over the character list of the string so that all
definitions evaluate inside the kernel.
-/

namespace SanitizeJs

/-- Model of the JavaScript string method `toLowerCase` over the character
list of the string. -/
def toLowerStr (s : String) : String := ⟨s.data.map Char.toLower⟩

/-- Model of the JavaScript string method `startsWith`. -/
def startsWithStr (s p : String) : Bool := p.data.isPrefixOf s.data

/-- Model of the JavaScript string method `slice(n)`. -/
def dropStr (s : String) (n : Nat) : String := ⟨s.data.drop n⟩

/-- Attribute of a DOM element: a name/value pair, as the `{ name, value }`
objects of a `NamedNodeMap` entry. -/
abbrev Attr := String × String

mutual

/-- Node of the parsed document tree: a text node or an element.  The `id`
models JavaScript object identity of the DOM node. -/
inductive HNode where
  | text (id : Nat) (s : String)
  | elem (id : Nat) (tag : String) (attrs : List Attr) (children : HForest)

/-- Ordered sequence of sibling nodes (the child list of an element, or
the child list of `doc.body`). -/
inductive HForest where
  | nil
  | cons (n : HNode) (rest : HForest)

end

/-- Concatenation of sibling sequences. -/
def appF : HForest → HForest → HForest
  | .nil, G => G
  | .cons n rest, G => .cons n (appF rest G)

/-- Model of `Node.nodeName` (already lowercased for elements by the
parser model; the source lowercases defensively, which `toLowerStr`
reproduces). -/
def nodeName : HNode → String
  | .text _ _ => "#text"
  | .elem _ tag _ _ => tag

/-- Identity of a node. -/
def nodeId : HNode → Nat
  | .text i _ => i
  | .elem i _ _ _ => i

/-- Child list of a node; text nodes have none. -/
def childrenOf : HNode → HForest
  | .text _ _ => .nil
  | .elem _ _ _ cs => cs

/-- Model of `Element.getAttribute` on an attribute list: value of the
first attribute with the given name, or `none` (JavaScript `null`). -/
def getA (attrs : List Attr) (name : String) : Option String :=
  match attrs.find? (fun a => a.1 == name) with
  | some a => some a.2
  | none => none

/-- Model of `Element.setAttribute`: update the value in place if the
name is present, else append the attribute at the end, as the DOM does. -/
def setA (attrs : List Attr) (name v : String) : List Attr :=
  if attrs.any (fun a => a.1 == name) then
    attrs.map (fun a => if a.1 == name then (name, v) else a)
  else
    attrs ++ [(name, v)]

/-- Model of `Element.removeAttribute`. -/
def removeA (attrs : List Attr) (name : String) : List Attr :=
  attrs.filter (fun a => !(a.1 == name))

/-- Model of `node.getAttribute` at the node level (text nodes have no
attributes). -/
def getAttrN : HNode → String → Option String
  | .text _ _, _ => none
  | .elem _ _ attrs _, name => getA attrs name

/-- The `switch` statement of `isAllowedTag` (source lines 18-62): the
static tag allow list. -/
def isAllowedTagName (tagName : String) : Bool :=
  match tagName with
  | "#text" | "a" | "article" | "b" | "br" | "blockquote" | "cite"
  | "code" | "dd" | "del" | "div" | "dt" | "em"
  | "h1" | "h2" | "h3" | "h4" | "h5" | "h6"
  | "hr" | "i" | "img" | "ins" | "li" | "ol" | "p" | "pre" | "s"
  | "span" | "strong" | "sub" | "sup"
  | "table" | "tbody" | "td" | "th" | "thead" | "tr" | "tt" | "ul" => true
  | _ => false

/-- Translation of `isAllowedTag` (source lines 11-63): the tag allow
list, with the `input` carve-out that consults the `type` attribute. -/
def isAllowedTag (node : HNode) : Bool :=
  let tagName := toLowerStr (nodeName node)
  if tagName == "input" then
    getAttrN node "type" == some "checkbox"
  else
    isAllowedTagName tagName

/-- Translation of `isAllowedAttr` (source lines 78-113): the static
per-tag attribute allow list. -/
def isAllowedAttr (tagName attrName : String) : Bool :=
  match tagName with
  | "a" =>
    match attrName with
    | "alt" | "href" | "rel" | "title" => true
    | _ => false
  | "img" =>
    match attrName with
    | "alt" | "src" | "title" => true
    | _ => false
  | "input" =>
    match attrName with
    | "checked" | "type" => true
    | _ => false
  | _ => false

/-- The `switch` statement of `isForbidden` (source lines 125-137): the
forbidden tag set. -/
def isForbiddenName (tagName : String) : Bool :=
  match tagName with
  | "head" | "html" | "iframe" | "link" | "meta" | "object" | "script" | "style" => true
  | _ => false

/-- Translation of `isForbidden` (source lines 122-138): tags whose whole
subtree is eliminated. -/
def isForbidden (node : HNode) : Bool :=
  isForbiddenName (toLowerStr (nodeName node))

/-- Modelled from the spec: the `valid-url` package (`validUrl.isWebUri`)
is an external collaborator, its code is not in this repository.  Per the
spec it reports whether a string is a syntactically valid absolute URI
restricted to the http/https schemes. -/
def isWebUri (s : String) : Bool :=
  let afterScheme :=
    if startsWithStr s "http://" then some (dropStr s 7)
    else if startsWithStr s "https://" then some (dropStr s 8)
    else none
  match afterScheme with
  | none => false
  | some r =>
      !r.data.isEmpty &&
      r.data.all (fun c => 32 < c.toNat && c.toNat < 127 && !(c.toNat == 34) && !(c.toNat == 60) && !(c.toNat == 62))

/-- Modelled from the spec: the `isemail` package (`isemail.validate`) is
an external collaborator, its code is not in this repository.  Per the
spec it reports whether a string is a structurally valid email address:
a nonempty local part, one at-sign, and a dotted nonempty domain. -/
def isValidEmail (s : String) : Bool :=
  let isAt := fun (c : Char) => c.toNat == 64
  let lo := s.data.takeWhile (fun c => !isAt c)
  match s.data.dropWhile (fun c => !isAt c) with
  | [] => false
  | _ :: dom =>
      !lo.isEmpty && !dom.isEmpty &&
      !dom.any isAt &&
      dom.contains (Char.ofNat 46) &&
      (lo ++ dom).all (fun c => 32 < c.toNat && c.toNat < 127) &&
      !(dom.head? == some (Char.ofNat 46)) && !(dom.getLast? == some (Char.ofNat 46))

/-- Translation of the callback passed to lodash `filter` in
`sanitizeHtml` (source lines 197-216).  Returns `true` when the attribute
must be removed: not in the static allow list, not an http/https
`href`/`src`, and not a valid `mailto:` `href`. -/
def attrDisallowed (tagName : String) (a : Attr) : Bool :=
  if isAllowedAttr tagName a.1 then false
  else if (a.1 == "href" || a.1 == "src") && isWebUri a.2 then false
  else if a.1 == "href" && startsWithStr a.2 "mailto:" && isValidEmail (dropStr a.2 7) then false
  else true

/-- Translation of the attribute-stripping statement (source lines
197-217): lodash `filter` first builds the list of disallowed attributes
(a snapshot, taken before any removal), then `forEach` removes each by
name. -/
def removeDisallowedAttrs (tagName : String) (attrs : List Attr) : List Attr :=
  (attrs.filter (fun a => attrDisallowed tagName a)).foldl
    (fun acc a => removeA acc a.1) attrs

/-- Translation of the link normalization (source lines 221-229): on an
anchor whose `href` (read after attribute filtering) is a string not
starting with `mailto:`, force `target` and `rel`. -/
def normalizeLink (tagName : String) (attrs : List Attr) : List Attr :=
  let hrefAttribute := if tagName == "a" then getA attrs "href" else none
  match hrefAttribute with
  | some href =>
      if startsWithStr href "mailto:" then attrs
      else setA (setA attrs "target" "_blank") "rel" "external noopener noreferrer"
  | none => attrs

/-- Attribute processing applied to a kept node during the walk: strip
disallowed attributes, then normalize links (source lines 185-229);
`tagName` is the lowercased tag, as computed at source line 185. -/
def processAttrs (tagName : String) (attrs : List Attr) : List Attr :=
  normalizeLink tagName (removeDisallowedAttrs tagName attrs)

/-- Identities of all nodes of a forest, in document (walk) order. -/
def idsF : HForest → List Nat
  | .nil => []
  | .cons (.text i _) rest => i :: idsF rest
  | .cons (.elem i _ _ cs) rest => i :: (idsF cs ++ idsF rest)

/-- All nodes of a forest, in document (walk) order: the order in which
`walker.nextNode()` visits the strict descendants of `doc.body`
(source line 172). -/
def allNodesF : HForest → List HNode
  | .nil => []
  | .cons (.text i s) rest => .text i s :: allNodesF rest
  | .cons (.elem i t a cs) rest => .elem i t a cs :: (allNodesF cs ++ allNodesF rest)

/-- Identities pushed onto `forbiddenList` during the walk (source lines
175-178), in walk order.  The walk continues into the children of a
forbidden node: `continue` only skips the rest of the loop body, not the
traversal. -/
def forbiddenIdsF : HForest → List Nat
  | .nil => []
  | .cons (.text i s) rest =>
      (if isForbidden (.text i s) then [i] else []) ++ forbiddenIdsF rest
  | .cons (.elem i t a cs) rest =>
      (if isForbidden (.elem i t a cs) then [i] else []) ++
        (forbiddenIdsF cs ++ forbiddenIdsF rest)

/-- Identities pushed onto `removeList` during the walk (source lines
180-183), in walk order: nodes that are not forbidden and whose tag is
not allowed. -/
def removeIdsF : HForest → List Nat
  | .nil => []
  | .cons (.text i s) rest =>
      (if !isForbidden (.text i s) && !isAllowedTag (.text i s) then [i] else []) ++
        removeIdsF rest
  | .cons (.elem i t a cs) rest =>
      (if !isForbidden (.elem i t a cs) && !isAllowedTag (.elem i t a cs) then [i] else []) ++
        (removeIdsF cs ++ removeIdsF rest)

/-- Attribute mutation performed during the walk (source lines 185-229):
every node that is neither forbidden nor disallowed (a kept node) has its
attributes filtered and its links normalized, in place.  The walk mutates
only attributes, never the tree structure, so it reaches every node of
the original tree, including descendants of forbidden or unwrapped
nodes. -/
def mutateF : HForest → HForest
  | .nil => .nil
  | .cons (.text i s) rest => .cons (.text i s) (mutateF rest)
  | .cons (.elem i t a cs) rest =>
      if isForbidden (.elem i t a cs) then .cons (.elem i t a (mutateF cs)) (mutateF rest)
      else if !isAllowedTag (.elem i t a cs) then .cons (.elem i t a (mutateF cs)) (mutateF rest)
      else .cons (.elem i t (processAttrs (toLowerStr t) a) (mutateF cs)) (mutateF rest)

/-- Model of `node.parentNode.removeChild(node)` for a queued node
reference (source lines 233-242): drop the node with the given identity,
together with its whole subtree, wherever it still is.  When the node is
no longer in the tree (an ancestor was removed first) the operation
leaves the tree unchanged, modelling the caught-and-ignored exception. -/
def elimF (i : Nat) : HForest → HForest
  | .nil => .nil
  | .cons (.text j s) rest =>
      if j == i then elimF i rest else .cons (.text j s) (elimF i rest)
  | .cons (.elem j t a cs) rest =>
      if j == i then elimF i rest
      else .cons (.elem j t a (elimF i cs)) (elimF i rest)

/-- Model of the unwrap removal for a queued node reference (source lines
246-263): splice the children of the node with the given identity into
its position among its siblings, preserving their order (`insertBefore`
of each `firstChild` in turn), then drop the node.  When the node is no
longer in the tree the operation leaves the tree unchanged, modelling the
caught-and-ignored exception. -/
def unwrapF (i : Nat) : HForest → HForest
  | .nil => .nil
  | .cons (.text j s) rest =>
      if j == i then unwrapF i rest else .cons (.text j s) (unwrapF i rest)
  | .cons (.elem j t a cs) rest =>
      if j == i then appF cs (unwrapF i rest)
      else .cons (.elem j t a (unwrapF i cs)) (unwrapF i rest)

/-- Translation of `sanitizeHtml` (source lines 146-266) on the parsed
tree: `body` is the child forest of `doc.body` produced by the external
parser, and the result is the forest serialized by `doc.body.innerHTML`.
The walk mutates kept-node attributes and queues removals; removals are
deferred until the walk completes, all `forbiddenList` eliminations are
applied first, then all `removeList` unwraps, each list in walk order. -/
def sanitizeHtml (body : HForest) : HForest :=
  let mutated := mutateF body
  let afterElim := (forbiddenIdsF body).foldl (fun t i => elimF i t) mutated
  (removeIdsF body).foldl (fun t i => unwrapF i t) afterElim

mutual

/-- Recursive characterization of the sanitizer (proved equal to
`sanitizeHtml` on trees with unique node identities): the fragment a
single node contributes to the output. -/
def sanitizeN : HNode → HForest
  | .text i s => .cons (.text i s) .nil
  | .elem i t a cs =>
      if isForbidden (.elem i t a cs) then .nil
      else if !isAllowedTag (.elem i t a cs) then sanitizeF cs
      else .cons (.elem i t (processAttrs (toLowerStr t) a) (sanitizeF cs)) .nil

/-- Recursive characterization of the sanitizer on a forest. -/
def sanitizeF : HForest → HForest
  | .nil => .nil
  | .cons n rest => appF (sanitizeN n) (sanitizeF rest)

end

mutual

/-- Result of the elimination phase on a single node: forbidden subtrees
dropped, attribute mutation of kept nodes already applied. -/
def pruneN : HNode → HForest
  | .text i s => .cons (.text i s) .nil
  | .elem i t a cs =>
      if isForbidden (.elem i t a cs) then .nil
      else if !isAllowedTag (.elem i t a cs) then .cons (.elem i t a (pruneF cs)) .nil
      else .cons (.elem i t (processAttrs (toLowerStr t) a) (pruneF cs)) .nil

/-- Result of the elimination phase on a forest. -/
def pruneF : HForest → HForest
  | .nil => .nil
  | .cons n rest => appF (pruneN n) (pruneF rest)

end

/-- Uniqueness of attribute names on one attribute list, as guaranteed by
the HTML parser (a `NamedNodeMap` has unique names). -/
def noDupKeys : List Attr → Bool
  | [] => true
  | a :: rest => !(rest.any (fun b => b.1 == a.1)) && noDupKeys rest

/-- Well-formedness of a parsed forest: every element has unique
attribute names. -/
def wfAttrsF : HForest → Bool
  | .nil => true
  | .cons (.text _ _) rest => wfAttrsF rest
  | .cons (.elem _ _ a cs) rest => noDupKeys a && wfAttrsF cs && wfAttrsF rest

/-- Identities of one node and its subtree. -/
def idsN : HNode → List Nat
  | .text i _ => [i]
  | .elem i _ _ cs => i :: idsF cs

/-! Basic structural lemmas. -/

theorem forest_ind (P : HForest → Prop)
    (hnil : P .nil)
    (htext : ∀ i s rest, P rest → P (.cons (.text i s) rest))
    (helem : ∀ i t a cs rest, P cs → P rest → P (.cons (.elem i t a cs) rest)) :
    ∀ F, P F := by
  intro F
  induction F using HForest.rec (motive_1 := fun n => ∀ rest, P rest → P (.cons n rest)) with
  | text i s => rename_i rest h; exact htext i s rest h
  | elem i t a cs ih => rename_i rest h; exact helem i t a cs rest ih h
  | nil => exact hnil
  | cons n rest ihn ihr => exact ihn rest ihr

theorem idsF_cons (n : HNode) (rest : HForest) :
    idsF (.cons n rest) = idsN n ++ idsF rest := by
  cases n <;> rfl

theorem appF_assoc (F G H : HForest) :
    appF (appF F G) H = appF F (appF G H) := by
  induction F using forest_ind with
  | hnil => rfl
  | htext i s rest ih => simp [appF, ih]
  | helem i t a cs rest ihc ihr => simp [appF, ihr]

theorem idsF_appF (F G : HForest) : idsF (appF F G) = idsF F ++ idsF G := by
  induction F using forest_ind with
  | hnil => rfl
  | htext i s rest ih => simp [appF, idsF, ih]
  | helem i t a cs rest ihc ihr => simp [appF, idsF, ihr]

theorem elimF_appF (i : Nat) (F G : HForest) :
    elimF i (appF F G) = appF (elimF i F) (elimF i G) := by
  induction F using forest_ind with
  | hnil => rfl
  | htext j s rest ih =>
      by_cases h : (j == i) = true <;> simp [appF, elimF, h, ih]
  | helem j t a cs rest ihc ihr =>
      by_cases h : (j == i) = true <;> simp [appF, elimF, h, ihr]

theorem unwrapF_appF (i : Nat) (F G : HForest) :
    unwrapF i (appF F G) = appF (unwrapF i F) (unwrapF i G) := by
  induction F using forest_ind with
  | hnil => rfl
  | htext j s rest ih =>
      by_cases h : (j == i) = true <;> simp [appF, unwrapF, h, ih]
  | helem j t a cs rest ihc ihr =>
      by_cases h : (j == i) = true <;>
        simp [appF, unwrapF, h, ihr, appF_assoc]

theorem idsF_elimF_subset (i : Nat) (F : HForest) :
    idsF (elimF i F) ⊆ idsF F := by
  induction F using forest_ind with
  | hnil => simp [elimF]
  | htext j s rest ih =>
      intro x hx
      simp only [idsF, List.mem_cons]
      by_cases h : (j == i) = true
      · simp only [elimF, h, if_true] at hx
        exact Or.inr (ih hx)
      · have h2 : (j == i) = false := by simpa using h
        simp only [elimF, h2, Bool.false_eq_true, if_false, idsF, List.mem_cons] at hx
        rcases hx with h1 | h1
        · exact Or.inl h1
        · exact Or.inr (ih h1)
  | helem j t a cs rest ihc ihr =>
      intro x hx
      simp only [idsF, List.mem_cons, List.mem_append]
      by_cases h : (j == i) = true
      · simp only [elimF, h, if_true] at hx
        exact Or.inr (Or.inr (ihr hx))
      · have h2 : (j == i) = false := by simpa using h
        simp only [elimF, h2, Bool.false_eq_true, if_false, idsF, List.mem_cons,
          List.mem_append] at hx
        rcases hx with h1 | h1 | h1
        · exact Or.inl h1
        · exact Or.inr (Or.inl (ihc h1))
        · exact Or.inr (Or.inr (ihr h1))


theorem idsF_unwrapF_subset (i : Nat) (F : HForest) :
    idsF (unwrapF i F) ⊆ idsF F := by
  induction F using forest_ind with
  | hnil => simp [unwrapF]
  | htext j s rest ih =>
      intro x hx
      simp only [idsF, List.mem_cons]
      by_cases h : (j == i) = true
      · simp only [unwrapF, h, if_true] at hx
        exact Or.inr (ih hx)
      · have h2 : (j == i) = false := by simpa using h
        simp only [unwrapF, h2, Bool.false_eq_true, if_false, idsF, List.mem_cons] at hx
        rcases hx with h1 | h1
        · exact Or.inl h1
        · exact Or.inr (ih h1)
  | helem j t a cs rest ihc ihr =>
      intro x hx
      simp only [idsF, List.mem_cons, List.mem_append]
      by_cases h : (j == i) = true
      · simp only [unwrapF, h, if_true] at hx
        rw [idsF_appF] at hx
        rcases List.mem_append.mp hx with h1 | h1
        · exact Or.inr (Or.inl h1)
        · exact Or.inr (Or.inr (ihr h1))
      · have h2 : (j == i) = false := by simpa using h
        simp only [unwrapF, h2, Bool.false_eq_true, if_false, idsF, List.mem_cons,
          List.mem_append] at hx
        rcases hx with h1 | h1 | h1
        · exact Or.inl h1
        · exact Or.inr (Or.inl (ihc h1))
        · exact Or.inr (Or.inr (ihr h1))

theorem elimF_of_notMem (i : Nat) (F : HForest) (h : i ∉ idsF F) :
    elimF i F = F := by
  induction F using forest_ind with
  | hnil => rfl
  | htext j s rest ih =>
      simp only [idsF, List.mem_cons, not_or] at h
      have hj : (j == i) = false := beq_eq_false_iff_ne.mpr (Ne.symm h.1)
      simp [elimF, hj, ih h.2]
  | helem j t a cs rest ihc ihr =>
      simp only [idsF, List.mem_cons, List.mem_append, not_or] at h
      have hj : (j == i) = false := beq_eq_false_iff_ne.mpr (Ne.symm h.1)
      simp [elimF, hj, ihc h.2.1, ihr h.2.2]

theorem unwrapF_of_notMem (i : Nat) (F : HForest) (h : i ∉ idsF F) :
    unwrapF i F = F := by
  induction F using forest_ind with
  | hnil => rfl
  | htext j s rest ih =>
      simp only [idsF, List.mem_cons, not_or] at h
      have hj : (j == i) = false := beq_eq_false_iff_ne.mpr (Ne.symm h.1)
      simp [unwrapF, hj, ih h.2]
  | helem j t a cs rest ihc ihr =>
      simp only [idsF, List.mem_cons, List.mem_append, not_or] at h
      have hj : (j == i) = false := beq_eq_false_iff_ne.mpr (Ne.symm h.1)
      simp [unwrapF, hj, ihc h.2.1, ihr h.2.2]

theorem elimF_skip (i : Nat) (n : HNode) (rest : HForest) (h : i ∉ idsN n) :
    elimF i (.cons n rest) = .cons n (elimF i rest) := by
  cases n with
  | text j s =>
      simp only [idsN, List.mem_singleton] at h
      have hj : (j == i) = false := beq_eq_false_iff_ne.mpr (Ne.symm h)
      simp [elimF, hj]
  | elem j t a cs =>
      simp only [idsN, List.mem_cons, not_or] at h
      have hj : (j == i) = false := beq_eq_false_iff_ne.mpr (Ne.symm h.1)
      simp [elimF, hj, elimF_of_notMem i cs h.2]

theorem unwrapF_skip (i : Nat) (n : HNode) (rest : HForest) (h : i ∉ idsN n) :
    unwrapF i (.cons n rest) = .cons n (unwrapF i rest) := by
  cases n with
  | text j s =>
      simp only [idsN, List.mem_singleton] at h
      have hj : (j == i) = false := beq_eq_false_iff_ne.mpr (Ne.symm h)
      simp [unwrapF, hj]
  | elem j t a cs =>
      simp only [idsN, List.mem_cons, not_or] at h
      have hj : (j == i) = false := beq_eq_false_iff_ne.mpr (Ne.symm h.1)
      simp [unwrapF, hj, unwrapF_of_notMem i cs h.2]

/-! Lemmas about folding a removal operation over a queue of node
identities, parametric in the operation. -/

def foldOp (op : Nat → HForest → HForest) (l : List Nat) (F : HForest) : HForest :=
  l.foldl (fun t i => op i t) F

theorem foldOp_cons (op : Nat → HForest → HForest) (i : Nat) (l : List Nat) (F : HForest) :
    foldOp op (i :: l) F = foldOp op l (op i F) := rfl

theorem foldOp_append (op : Nat → HForest → HForest) (l1 l2 : List Nat) (F : HForest) :
    foldOp op (l1 ++ l2) F = foldOp op l2 (foldOp op l1 F) :=
  List.foldl_append _ _ _ _

theorem foldOp_of_disjoint (op : Nat → HForest → HForest)
    (hnm : ∀ i F, i ∉ idsF F → op i F = F)
    (l : List Nat) (F : HForest)
    (h : ∀ i ∈ l, i ∉ idsF F) : foldOp op l F = F := by
  induction l with
  | nil => rfl
  | cons a l ih =>
      rw [foldOp_cons, hnm a F (h a (List.mem_cons_self a l))]
      exact ih fun i hi => h i (List.mem_cons_of_mem _ hi)

theorem foldOp_appF_left (op : Nat → HForest → HForest)
    (hnm : ∀ i F, i ∉ idsF F → op i F = F)
    (happ : ∀ i F G, op i (appF F G) = appF (op i F) (op i G))
    (l : List Nat) (F G : HForest)
    (h : ∀ i ∈ l, i ∉ idsF G) :
    foldOp op l (appF F G) = appF (foldOp op l F) G := by
  induction l generalizing F with
  | nil => rfl
  | cons a l ih =>
      rw [foldOp_cons, happ, hnm a G (h a (List.mem_cons_self a l)), foldOp_cons]
      exact ih (op a F) fun i hi => h i (List.mem_cons_of_mem _ hi)

theorem foldOp_appF_right (op : Nat → HForest → HForest)
    (hnm : ∀ i F, i ∉ idsF F → op i F = F)
    (happ : ∀ i F G, op i (appF F G) = appF (op i F) (op i G))
    (l : List Nat) (F G : HForest)
    (h : ∀ i ∈ l, i ∉ idsF F) :
    foldOp op l (appF F G) = appF F (foldOp op l G) := by
  induction l generalizing G with
  | nil => rfl
  | cons a l ih =>
      rw [foldOp_cons, happ, hnm a F (h a (List.mem_cons_self a l)), foldOp_cons]
      exact ih (op a G) fun i hi => h i (List.mem_cons_of_mem _ hi)

theorem foldOp_elem (op : Nat → HForest → HForest)
    (hnm : ∀ i F, i ∉ idsF F → op i F = F)
    (helemeq : ∀ i j t a cs rest, (j == i) = false →
      op i (.cons (.elem j t a cs) rest) = .cons (.elem j t a (op i cs)) (op i rest))
    (l : List Nat) (j : Nat) (t : String) (a : List Attr)
    (cs rest : HForest)
    (hj : ∀ i ∈ l, (j == i) = false) (hr : ∀ i ∈ l, i ∉ idsF rest) :
    foldOp op l (.cons (.elem j t a cs) rest) =
      .cons (.elem j t a (foldOp op l cs)) rest := by
  induction l generalizing cs with
  | nil => rfl
  | cons x l ih =>
      rw [foldOp_cons, helemeq x j t a cs rest (hj x (List.mem_cons_self x l)),
        hnm x rest (hr x (List.mem_cons_self x l)), foldOp_cons]
      exact ih (op x cs) (fun i hi => hj i (List.mem_cons_of_mem _ hi))
        (fun i hi => hr i (List.mem_cons_of_mem _ hi))

theorem foldOp_skip (op : Nat → HForest → HForest)
    (hskip : ∀ i n rest, i ∉ idsN n →
      op i (.cons n rest) = .cons n (op i rest))
    (l : List Nat) (n : HNode) (rest : HForest)
    (h : ∀ i ∈ l, i ∉ idsN n) :
    foldOp op l (.cons n rest) = .cons n (foldOp op l rest) := by
  induction l generalizing rest with
  | nil => rfl
  | cons x l ih =>
      rw [foldOp_cons, hskip x n rest (h x (List.mem_cons_self x l)), foldOp_cons]
      exact ih (op x rest) fun i hi => h i (List.mem_cons_of_mem _ hi)

theorem elimF_cons_elem (i j : Nat) (t : String) (a : List Attr)
    (cs rest : HForest) (h : (j == i) = false) :
    elimF i (.cons (.elem j t a cs) rest) =
      .cons (.elem j t a (elimF i cs)) (elimF i rest) := by
  simp [elimF, h]

theorem unwrapF_cons_elem (i j : Nat) (t : String) (a : List Attr)
    (cs rest : HForest) (h : (j == i) = false) :
    unwrapF i (.cons (.elem j t a cs) rest) =
      .cons (.elem j t a (unwrapF i cs)) (unwrapF i rest) := by
  simp [unwrapF, h]

theorem isForbidden_text (j : Nat) (s : String) :
    isForbidden (.text j s) = false := rfl

theorem isAllowedTag_text (j : Nat) (s : String) :
    isAllowedTag (.text j s) = true := rfl

theorem forbiddenIdsF_subset (F : HForest) : forbiddenIdsF F ⊆ idsF F := by
  induction F using forest_ind with
  | hnil => simp [forbiddenIdsF]
  | htext j s rest ih =>
      intro x hx
      simp only [forbiddenIdsF, isForbidden_text, Bool.false_eq_true, if_false,
        List.nil_append] at hx
      exact List.mem_cons_of_mem _ (ih hx)
  | helem j t a cs rest ihc ihr =>
      intro x hx
      simp only [idsF, List.mem_cons, List.mem_append]
      by_cases hf : isForbidden (.elem j t a cs) = true
      · simp only [forbiddenIdsF, hf, if_true, List.singleton_append,
          List.mem_cons, List.mem_append] at hx
        rcases hx with h1 | h1 | h1
        · exact Or.inl h1
        · exact Or.inr (Or.inl (ihc h1))
        · exact Or.inr (Or.inr (ihr h1))
      · simp only [Bool.not_eq_true] at hf
        simp only [forbiddenIdsF, hf, Bool.false_eq_true, if_false,
          List.nil_append, List.mem_append] at hx
        rcases hx with h1 | h1
        · exact Or.inr (Or.inl (ihc h1))
        · exact Or.inr (Or.inr (ihr h1))

theorem removeIdsF_subset (F : HForest) : removeIdsF F ⊆ idsF F := by
  induction F using forest_ind with
  | hnil => simp [removeIdsF]
  | htext j s rest ih =>
      intro x hx
      simp only [removeIdsF, isForbidden_text, isAllowedTag_text] at hx
      simp only [Bool.not_false, Bool.not_true, Bool.and_false, Bool.false_eq_true,
        if_false, List.nil_append] at hx
      exact List.mem_cons_of_mem _ (ih hx)
  | helem j t a cs rest ihc ihr =>
      intro x hx
      simp only [idsF, List.mem_cons, List.mem_append]
      by_cases hf : (!isForbidden (.elem j t a cs) && !isAllowedTag (.elem j t a cs)) = true
      · simp only [removeIdsF, hf, if_true, List.singleton_append,
          List.mem_cons, List.mem_append] at hx
        rcases hx with h1 | h1 | h1
        · exact Or.inl h1
        · exact Or.inr (Or.inl (ihc h1))
        · exact Or.inr (Or.inr (ihr h1))
      · simp only [Bool.not_eq_true] at hf
        simp only [removeIdsF, hf, Bool.false_eq_true, if_false,
          List.nil_append, List.mem_append] at hx
        rcases hx with h1 | h1
        · exact Or.inr (Or.inl (ihc h1))
        · exact Or.inr (Or.inr (ihr h1))

theorem idsF_mutateF (F : HForest) : idsF (mutateF F) = idsF F := by
  induction F using forest_ind with
  | hnil => rfl
  | htext j s rest ih => simp [mutateF, idsF, ih]
  | helem j t a cs rest ihc ihr =>
      by_cases hf : isForbidden (.elem j t a cs) = true
      · simp [mutateF, hf, idsF, ihc, ihr]
      · simp only [Bool.not_eq_true] at hf
        by_cases ha : isAllowedTag (.elem j t a cs) = true
        · simp [mutateF, hf, ha, idsF, ihc, ihr]
        · simp only [Bool.not_eq_true] at ha
          simp [mutateF, hf, ha, idsF, ihc, ihr]

theorem pruneF_cons (n : HNode) (rest : HForest) :
    pruneF (.cons n rest) = appF (pruneN n) (pruneF rest) := rfl

theorem sanitizeF_cons (n : HNode) (rest : HForest) :
    sanitizeF (.cons n rest) = appF (sanitizeN n) (sanitizeF rest) := rfl

theorem idsF_pruneF_subset (F : HForest) : idsF (pruneF F) ⊆ idsF F := by
  induction F using forest_ind with
  | hnil => simp [pruneF]
  | htext j s rest ih =>
      intro x hx
      simp only [pruneF_cons, pruneN, appF, idsF, List.mem_cons] at hx
      simp only [idsF, List.mem_cons]
      rcases hx with h1 | h1
      · exact Or.inl h1
      · exact Or.inr (ih h1)
  | helem j t a cs rest ihc ihr =>
      intro x hx
      simp only [idsF, List.mem_cons, List.mem_append]
      by_cases hf : isForbidden (.elem j t a cs) = true
      · simp only [pruneF_cons, pruneN, hf, if_true, appF] at hx
        exact Or.inr (Or.inr (ihr hx))
      · have hm : ∀ A, x ∈ idsF (.cons (.elem j t A (pruneF cs)) (pruneF rest)) →
            x = j ∨ (x ∈ idsF cs ∨ x ∈ idsF rest) := by
          intro A hx2
          simp only [idsF, List.mem_cons, List.mem_append] at hx2
          rcases hx2 with h1 | h1 | h1
          · exact Or.inl h1
          · exact Or.inr (Or.inl (ihc h1))
          · exact Or.inr (Or.inr (ihr h1))
        by_cases ha : isAllowedTag (.elem j t a cs) = true
        · simp only [pruneF_cons, pruneN, hf, ha, Bool.false_eq_true, if_false,
            Bool.not_true, appF] at hx
          exact hm _ hx
        · simp only [Bool.not_eq_true] at ha
          simp only [pruneF_cons, pruneN, hf, ha, Bool.false_eq_true, if_false,
            Bool.not_false, if_true, appF] at hx
          exact hm _ hx

theorem idsF_sanitizeF_subset (F : HForest) : idsF (sanitizeF F) ⊆ idsF F := by
  induction F using forest_ind with
  | hnil => simp [sanitizeF]
  | htext j s rest ih =>
      intro x hx
      simp only [sanitizeF_cons, sanitizeN, appF, idsF, List.mem_cons] at hx
      simp only [idsF, List.mem_cons]
      rcases hx with h1 | h1
      · exact Or.inl h1
      · exact Or.inr (ih h1)
  | helem j t a cs rest ihc ihr =>
      intro x hx
      simp only [idsF, List.mem_cons, List.mem_append]
      by_cases hf : isForbidden (.elem j t a cs) = true
      · simp only [sanitizeF_cons, sanitizeN, hf, if_true, appF] at hx
        exact Or.inr (Or.inr (ihr hx))
      · by_cases ha : isAllowedTag (.elem j t a cs) = true
        · simp only [sanitizeF_cons, sanitizeN, hf, ha, Bool.false_eq_true, if_false,
            Bool.not_true, appF] at hx
          simp only [idsF, List.mem_cons, List.mem_append] at hx
          rcases hx with h1 | h1 | h1
          · exact Or.inl h1
          · exact Or.inr (Or.inl (ihc h1))
          · exact Or.inr (Or.inr (ihr h1))
        · simp only [Bool.not_eq_true] at ha
          simp only [sanitizeF_cons, sanitizeN, hf, ha, Bool.false_eq_true, if_false,
            Bool.not_false, if_true] at hx
          rw [idsF_appF] at hx
          rcases List.mem_append.mp hx with h1 | h1
          · exact Or.inr (Or.inl (ihc h1))
          · exact Or.inr (Or.inr (ihr h1))

/-- The elimination phase: folding the `forbiddenList` removals (in walk
order) over the attribute-mutated tree prunes exactly the forbidden
subtrees. -/
theorem elim_phase (F : HForest) (h : (idsF F).Nodup) :
    foldOp elimF (forbiddenIdsF F) (mutateF F) = pruneF F := by
  induction F using forest_ind with
  | hnil => rfl
  | htext j s rest ih =>
      simp only [idsF, List.nodup_cons] at h
      obtain ⟨hj, hrest⟩ := h
      have hmut : mutateF (.cons (.text j s) rest) = .cons (.text j s) (mutateF rest) := by
        simp [mutateF]
      have hfl : forbiddenIdsF (.cons (.text j s) rest) = forbiddenIdsF rest := by
        simp [forbiddenIdsF, isForbidden_text]
      have hsk : ∀ i ∈ forbiddenIdsF rest, i ∉ idsN (HNode.text j s) := by
        intro i hi
        simp only [idsN, List.mem_singleton]
        intro e
        exact hj (e ▸ forbiddenIdsF_subset rest hi)
      rw [hmut, hfl, foldOp_skip elimF elimF_skip (forbiddenIdsF rest) _ (mutateF rest) hsk,
        ih hrest]
      rfl
  | helem j t a cs rest ihc ihr =>
      simp only [idsF, List.nodup_cons, List.nodup_append, List.mem_append, not_or] at h
      obtain ⟨⟨hjc, hjr⟩, hc, hr, hd⟩ := h
      by_cases hf : isForbidden (.elem j t a cs) = true
      · have hmut : mutateF (.cons (.elem j t a cs) rest) =
            .cons (.elem j t a (mutateF cs)) (mutateF rest) := by
          simp [mutateF, hf]
        have hfl : forbiddenIdsF (.cons (.elem j t a cs) rest) =
            j :: (forbiddenIdsF cs ++ forbiddenIdsF rest) := by
          simp [forbiddenIdsF, hf]
        rw [hmut, hfl, foldOp_cons]
        have h1 : elimF j (.cons (.elem j t a (mutateF cs)) (mutateF rest)) = mutateF rest := by
          simp only [elimF, beq_self_eq_true, if_true]
          exact elimF_of_notMem j (mutateF rest) (by rw [idsF_mutateF]; exact hjr)
        have h2 : ∀ i ∈ forbiddenIdsF cs, i ∉ idsF (mutateF rest) := by
          intro i hi
          rw [idsF_mutateF]
          exact fun hm => hd (forbiddenIdsF_subset cs hi) hm
        rw [h1, foldOp_append, foldOp_of_disjoint elimF elimF_of_notMem _ _ h2, ihr hr]
        simp [pruneF_cons, pruneN, hf, appF]
      · have main : ∀ A : List Attr,
            foldOp elimF (forbiddenIdsF cs ++ forbiddenIdsF rest)
              (.cons (.elem j t A (mutateF cs)) (mutateF rest)) =
            .cons (.elem j t A (pruneF cs)) (pruneF rest) := by
          intro A
          have hj1 : ∀ i ∈ forbiddenIdsF cs, (j == i) = false := by
            intro i hi
            exact beq_eq_false_iff_ne.mpr
              (fun e => hjc (by rw [e]; exact forbiddenIdsF_subset cs hi))
          have hr1 : ∀ i ∈ forbiddenIdsF cs, i ∉ idsF (mutateF rest) := by
            intro i hi
            rw [idsF_mutateF]
            exact fun hm => hd (forbiddenIdsF_subset cs hi) hm
          have hsk : ∀ i ∈ forbiddenIdsF rest, i ∉ idsN (HNode.elem j t A (pruneF cs)) := by
            intro i hi
            have hir : i ∈ idsF rest := forbiddenIdsF_subset rest hi
            simp only [idsN, List.mem_cons, not_or]
            constructor
            · intro e
              exact hjr (e ▸ hir)
            · exact fun hm => hd (idsF_pruneF_subset cs hm) hir
          rw [foldOp_append,
            foldOp_elem elimF elimF_of_notMem elimF_cons_elem (forbiddenIdsF cs)
              j t A (mutateF cs) (mutateF rest) hj1 hr1,
            ihc hc,
            foldOp_skip elimF elimF_skip (forbiddenIdsF rest) _ (mutateF rest) hsk,
            ihr hr]
        have hfl : forbiddenIdsF (.cons (.elem j t a cs) rest) =
            forbiddenIdsF cs ++ forbiddenIdsF rest := by
          simp [forbiddenIdsF, hf]
        by_cases ha : isAllowedTag (.elem j t a cs) = true
        · have hmut : mutateF (.cons (.elem j t a cs) rest) =
              .cons (.elem j t (processAttrs (toLowerStr t) a) (mutateF cs)) (mutateF rest) := by
            simp [mutateF, hf, ha]
          rw [hmut, hfl, main]
          simp [pruneF_cons, pruneN, hf, ha, appF]
        · have ha2 : isAllowedTag (.elem j t a cs) = false := by
            simpa using ha
          have hmut : mutateF (.cons (.elem j t a cs) rest) =
              .cons (.elem j t a (mutateF cs)) (mutateF rest) := by
            simp [mutateF, hf, ha2]
          rw [hmut, hfl, main]
          simp [pruneF_cons, pruneN, hf, ha2, appF]

/-- The unwrap phase: folding the `removeList` removals (in walk order)
over the pruned tree yields the recursive sanitizer.  The removals queued
inside forbidden subtrees are no longer present and are absorbed as
no-ops. -/
theorem unwrap_phase (F : HForest) (h : (idsF F).Nodup) :
    foldOp unwrapF (removeIdsF F) (pruneF F) = sanitizeF F := by
  induction F using forest_ind with
  | hnil => rfl
  | htext j s rest ih =>
      simp only [idsF, List.nodup_cons] at h
      obtain ⟨hj, hrest⟩ := h
      have hfl : removeIdsF (.cons (.text j s) rest) = removeIdsF rest := by
        simp [removeIdsF, isForbidden_text, isAllowedTag_text]
      have hpr : pruneF (.cons (.text j s) rest) = .cons (.text j s) (pruneF rest) := rfl
      have hsk : ∀ i ∈ removeIdsF rest, i ∉ idsN (HNode.text j s) := by
        intro i hi
        simp only [idsN, List.mem_singleton]
        intro e
        exact hj (e ▸ removeIdsF_subset rest hi)
      rw [hfl, hpr, foldOp_skip unwrapF unwrapF_skip (removeIdsF rest) _ (pruneF rest) hsk,
        ih hrest]
      rfl
  | helem j t a cs rest ihc ihr =>
      simp only [idsF, List.nodup_cons, List.nodup_append, List.mem_append, not_or] at h
      obtain ⟨⟨hjc, hjr⟩, hc, hr, hd⟩ := h
      have hdisj1 : ∀ i ∈ removeIdsF cs, i ∉ idsF (pruneF rest) := by
        intro i hi
        exact fun hm => hd (removeIdsF_subset cs hi) (idsF_pruneF_subset rest hm)
      by_cases hf : isForbidden (.elem j t a cs) = true
      · have hfl : removeIdsF (.cons (.elem j t a cs) rest) =
            removeIdsF cs ++ removeIdsF rest := by
          simp [removeIdsF, hf]
        have hpr : pruneF (.cons (.elem j t a cs) rest) = pruneF rest := by
          simp [pruneF_cons, pruneN, hf, appF]
        rw [hfl, hpr, foldOp_append,
          foldOp_of_disjoint unwrapF unwrapF_of_notMem _ _ hdisj1, ihr hr]
        simp [sanitizeF_cons, sanitizeN, hf, appF]
      · by_cases ha : isAllowedTag (.elem j t a cs) = true
        · -- kept node
          have hfl : removeIdsF (.cons (.elem j t a cs) rest) =
              removeIdsF cs ++ removeIdsF rest := by
            simp [removeIdsF, hf, ha]
          have hpr : pruneF (.cons (.elem j t a cs) rest) =
              .cons (.elem j t (processAttrs (toLowerStr t) a) (pruneF cs)) (pruneF rest) := by
            simp [pruneF_cons, pruneN, hf, ha, appF]
          have hj1 : ∀ i ∈ removeIdsF cs, (j == i) = false := by
            intro i hi
            exact beq_eq_false_iff_ne.mpr
              (fun e => hjc (by rw [e]; exact removeIdsF_subset cs hi))
          have hsk : ∀ i ∈ removeIdsF rest,
              i ∉ idsN (HNode.elem j t (processAttrs (toLowerStr t) a) (sanitizeF cs)) := by
            intro i hi
            have hir : i ∈ idsF rest := removeIdsF_subset rest hi
            simp only [idsN, List.mem_cons, not_or]
            constructor
            · intro e
              exact hjr (e ▸ hir)
            · exact fun hm => hd (idsF_sanitizeF_subset cs hm) hir
          rw [hfl, hpr, foldOp_append,
            foldOp_elem unwrapF unwrapF_of_notMem unwrapF_cons_elem (removeIdsF cs)
              j t (processAttrs (toLowerStr t) a) (pruneF cs) (pruneF rest) hj1 hdisj1,
            ihc hc,
            foldOp_skip unwrapF unwrapF_skip (removeIdsF rest) _ (pruneF rest) hsk,
            ihr hr]
          simp [sanitizeF_cons, sanitizeN, hf, ha, appF]
        · -- unwrapped node
          have ha2 : isAllowedTag (.elem j t a cs) = false := by
            simpa using ha
          have hfl : removeIdsF (.cons (.elem j t a cs) rest) =
              j :: (removeIdsF cs ++ removeIdsF rest) := by
            simp [removeIdsF, hf, ha2]
          have hpr : pruneF (.cons (.elem j t a cs) rest) =
              .cons (.elem j t a (pruneF cs)) (pruneF rest) := by
            simp [pruneF_cons, pruneN, hf, ha2, appF]
          rw [hfl, hpr, foldOp_cons]
          have h1 : unwrapF j (.cons (.elem j t a (pruneF cs)) (pruneF rest)) =
              appF (pruneF cs) (pruneF rest) := by
            simp only [unwrapF, beq_self_eq_true, if_true]
            rw [unwrapF_of_notMem j (pruneF rest)
              (fun hm => hjr (idsF_pruneF_subset rest hm))]
          have h2 : ∀ i ∈ removeIdsF rest, i ∉ idsF (sanitizeF cs) := by
            intro i hi
            exact fun hm => hd (idsF_sanitizeF_subset cs hm) (removeIdsF_subset rest hi)
          rw [h1, foldOp_append,
            foldOp_appF_left unwrapF unwrapF_of_notMem unwrapF_appF (removeIdsF cs)
              (pruneF cs) (pruneF rest) hdisj1,
            ihc hc,
            foldOp_appF_right unwrapF unwrapF_of_notMem unwrapF_appF (removeIdsF rest)
              (sanitizeF cs) (pruneF rest) h2,
            ihr hr]
          simp [sanitizeF_cons, sanitizeN, hf, ha2, appF]

/-- On a tree with unique node identities (as DOM object identity
guarantees) the deferred two-phase removal pipeline of `sanitizeHtml`
computes the recursive sanitizer. -/
theorem sanitizeHtml_eq_sanitizeF (F : HForest) (h : (idsF F).Nodup) :
    sanitizeHtml F = sanitizeF F := by
  show foldOp unwrapF (removeIdsF F) (foldOp elimF (forbiddenIdsF F) (mutateF F)) = _
  rw [elim_phase F h, unwrap_phase F h]

/-! Attribute-level lemmas. -/

theorem beqStr_comm (x y : String) : (x == y) = (y == x) := by
  by_cases h : x = y
  · simp [h]
  · rw [beq_eq_false_iff_ne.mpr h, beq_eq_false_iff_ne.mpr (Ne.symm h)]

theorem fst_setfun (n v : String) (a : Attr) :
    (if a.1 == n then (n, v) else a).1 = a.1 := by
  by_cases h : (a.1 == n) = true
  · simp [h, (beq_iff_eq ..).mp h]
  · simp [h]

theorem isAllowedAttr_target (tag : String) : isAllowedAttr tag "target" = false := by
  unfold isAllowedAttr
  split <;> rfl

theorem attrDisallowed_target (tag v : String) :
    attrDisallowed tag ("target", v) = true := by
  simp [attrDisallowed, isAllowedAttr_target]

theorem attrDisallowed_rel_a (v : String) :
    attrDisallowed "a" ("rel", v) = false := rfl

theorem attrDisallowed_href_a (v : String) :
    attrDisallowed "a" ("href", v) = false := rfl

theorem foldl_removeA (l xs : List Attr) :
    l.foldl (fun acc a => removeA acc a.1) xs =
      xs.filter (fun x => !(l.any (fun a => a.1 == x.1))) := by
  induction l generalizing xs with
  | nil => simp
  | cons a l ih =>
      rw [List.foldl_cons, ih]
      show (removeA xs a.1).filter _ = _
      unfold removeA
      rw [List.filter_filter]
      apply List.filter_congr
      intro x _
      simp only [List.any_cons, Bool.not_or, beqStr_comm x.1 a.1]
      rw [Bool.and_comm]

theorem noDupKeys_eq_of_mem (l : List Attr) (h : noDupKeys l = true)
    (a b : Attr) (ha : a ∈ l) (hb : b ∈ l) (hab : a.1 = b.1) : a = b := by
  induction l with
  | nil => cases ha
  | cons c tl ih =>
      simp only [noDupKeys, Bool.and_eq_true, Bool.not_eq_eq_eq_not, Bool.not_true] at h
      obtain ⟨hany, htl⟩ := h
      rcases List.mem_cons.mp ha with rfl | ha2 <;> rcases List.mem_cons.mp hb with rfl | hb2
      · rfl
      · exfalso
        have hbb := List.any_eq_false.mp hany b hb2
        rw [(beq_iff_eq ..).mpr hab.symm] at hbb
        exact hbb rfl
      · exfalso
        have haa := List.any_eq_false.mp hany a ha2
        rw [(beq_iff_eq ..).mpr hab] at haa
        exact haa rfl
      · exact ih htl ha2 hb2

/-- On unique attribute names the queued snapshot removal is exactly a
filter by the (negated) removal predicate: no attribute escapes. -/
theorem removeDisallowedAttrs_eq_filter (tag : String) (attrs : List Attr)
    (h : noDupKeys attrs = true) :
    removeDisallowedAttrs tag attrs = attrs.filter (fun a => !(attrDisallowed tag a)) := by
  unfold removeDisallowedAttrs
  rw [foldl_removeA]
  apply List.filter_congr
  intro x hx
  have key : ((attrs.filter (fun a => attrDisallowed tag a)).any (fun a => a.1 == x.1)) =
      attrDisallowed tag x := by
    by_cases hd : attrDisallowed tag x = true
    · rw [hd]
      apply List.any_eq_true.mpr
      exact ⟨x, List.mem_filter.mpr ⟨hx, hd⟩, (beq_iff_eq ..).mpr rfl⟩
    · have hd2 : attrDisallowed tag x = false := by simpa using hd
      rw [hd2]
      apply List.any_eq_false.mpr
      intro a hafil
      obtain ⟨hamem, haDis⟩ := List.mem_filter.mp hafil
      by_cases hb : (a.1 == x.1) = true
      · exfalso
        have : a = x := noDupKeys_eq_of_mem attrs h a x hamem hx ((beq_iff_eq ..).mp hb)
        rw [this] at haDis
        rw [haDis] at hd2
        exact Bool.true_eq_false.mp hd2
      · simpa using hb
  rw [key]

theorem any_filter_false (p q : Attr → Bool) (l : List Attr)
    (h : l.any q = false) : (l.filter p).any q = false :=
  List.any_eq_false.mpr fun x hx => List.any_eq_false.mp h x (List.mem_filter.mp hx).1

theorem filter_idem (p : Attr → Bool) (l : List Attr) :
    (l.filter p).filter p = l.filter p :=
  List.filter_eq_self.mpr fun _a ha => (List.mem_filter.mp ha).2

theorem attr_eta_fst (a : Attr) (n : String) (h : (a.1 == n) = true) : a = (n, a.2) :=
  Prod.ext ((beq_iff_eq ..).mp h) rfl

theorem getA_filter_keepAll (p : Attr → Bool) (n : String) (attrs : List Attr)
    (h : ∀ v, p (n, v) = true) :
    getA (attrs.filter p) n = getA attrs n := by
  induction attrs with
  | nil => rfl
  | cons a tl ih =>
      by_cases hb : (a.1 == n) = true
      · have hp : p a = true := by rw [attr_eta_fst a n hb]; exact h a.2
        rw [List.filter_cons_of_pos hp]
        simp [getA, List.find?, hb]
      · have hb2 : (a.1 == n) = false := by simpa using hb
        by_cases hp : p a = true
        · rw [List.filter_cons_of_pos hp]
          simp only [getA, List.find?, hb2]
          exact ih
        · rw [List.filter_cons_of_neg (by simpa using hp)]
          simp only [getA, List.find?, hb2]
          exact ih

theorem getA_filter_dropAll (p : Attr → Bool) (n : String) (attrs : List Attr)
    (h : ∀ v, p (n, v) = false) :
    getA (attrs.filter p) n = none := by
  induction attrs with
  | nil => rfl
  | cons a tl ih =>
      by_cases hb : (a.1 == n) = true
      · have hp : p a = false := by rw [attr_eta_fst a n hb]; exact h a.2
        rw [List.filter_cons_of_neg (by simp [hp])]
        exact ih
      · have hb2 : (a.1 == n) = false := by simpa using hb
        by_cases hp : p a = true
        · rw [List.filter_cons_of_pos hp]
          simp only [getA, List.find?, hb2]
          exact ih
        · rw [List.filter_cons_of_neg (by simpa using hp)]
          exact ih

theorem getA_map_set (attrs : List Attr) (n v : String)
    (hany : attrs.any (fun a => a.1 == n) = true) :
    getA (attrs.map (fun a => if a.1 == n then (n, v) else a)) n = some v := by
  induction attrs with
  | nil => simp at hany
  | cons a tl ih =>
      by_cases hb : (a.1 == n) = true
      · simp [getA, List.find?, hb]
      · have hb2 : (a.1 == n) = false := by simpa using hb
        simp only [List.any_cons, hb2, Bool.false_or] at hany
        simp only [List.map_cons, hb2, Bool.false_eq_true, if_false, getA, List.find?, hb2]
        exact ih hany

theorem getA_append_single_hit (attrs : List Attr) (n v : String)
    (hany : attrs.any (fun a => a.1 == n) = false) :
    getA (attrs ++ [(n, v)]) n = some v := by
  induction attrs with
  | nil => simp [getA, List.find?]
  | cons a tl ih =>
      simp only [List.any_cons, Bool.or_eq_false_iff] at hany
      simp only [List.cons_append, getA, List.find?, hany.1]
      exact ih hany.2

theorem getA_setA_same (attrs : List Attr) (n v : String) :
    getA (setA attrs n v) n = some v := by
  by_cases hany : (attrs.any (fun a => a.1 == n)) = true
  · rw [setA, if_pos hany]
    exact getA_map_set attrs n v hany
  · have hany2 : (attrs.any (fun a => a.1 == n)) = false := Bool.eq_false_iff.mpr hany
    rw [setA, if_neg (by rw [hany2]; exact Bool.false_ne_true)]
    exact getA_append_single_hit attrs n v hany2

theorem getA_map_set_other (attrs : List Attr) (n v m : String)
    (hm : (n == m) = false) :
    getA (attrs.map (fun a => if a.1 == n then (n, v) else a)) m = getA attrs m := by
  induction attrs with
  | nil => rfl
  | cons a tl ih =>
      by_cases hb : (a.1 == n) = true
      · have ham : (a.1 == m) = false := by
          rw [(beq_iff_eq ..).mp hb]
          exact hm
        simp only [List.map_cons, hb, if_true, getA, List.find?, hm, ham]
        exact ih
      · have hb2 : (a.1 == n) = false := by simpa using hb
        by_cases ham : (a.1 == m) = true
        · simp [getA, List.find?, hb2, ham]
        · have ham2 : (a.1 == m) = false := by simpa using ham
          simp only [List.map_cons, hb2, Bool.false_eq_true, if_false, getA,
            List.find?, ham2]
          exact ih

theorem getA_append_single_other (attrs : List Attr) (n v m : String)
    (hm : (n == m) = false) :
    getA (attrs ++ [(n, v)]) m = getA attrs m := by
  induction attrs with
  | nil => simp [getA, List.find?, hm]
  | cons a tl ih =>
      by_cases ham : (a.1 == m) = true
      · simp [getA, List.find?, ham]
      · have ham2 : (a.1 == m) = false := by simpa using ham
        simp only [List.cons_append, getA, List.find?, ham2]
        exact ih

theorem getA_setA_other (attrs : List Attr) (n v m : String)
    (hm : (n == m) = false) :
    getA (setA attrs n v) m = getA attrs m := by
  by_cases hany : (attrs.any (fun a => a.1 == n)) = true
  · rw [setA, if_pos hany]
    exact getA_map_set_other attrs n v m hm
  · rw [setA, if_neg hany]
    exact getA_append_single_other attrs n v m hm

theorem noDupKeys_filter (p : Attr → Bool) (attrs : List Attr)
    (h : noDupKeys attrs = true) : noDupKeys (attrs.filter p) = true := by
  induction attrs with
  | nil => rfl
  | cons a tl ih =>
      simp only [noDupKeys, Bool.and_eq_true, Bool.not_eq_eq_eq_not, Bool.not_true] at h
      obtain ⟨hany, htl⟩ := h
      by_cases hp : p a = true
      · rw [List.filter_cons_of_pos hp]
        simp only [noDupKeys, Bool.and_eq_true, Bool.not_eq_eq_eq_not, Bool.not_true]
        exact ⟨any_filter_false p _ tl hany, ih htl⟩
      · rw [List.filter_cons_of_neg (by simpa using hp)]
        exact ih htl

theorem any_congr_fun (l : List Attr) (f g : Attr → Bool) (h : ∀ b, f b = g b) :
    l.any f = l.any g := by
  induction l with
  | nil => rfl
  | cons a tl ih => simp only [List.any_cons, h, ih]

theorem noDupKeys_map_set (attrs : List Attr) (n v : String) :
    noDupKeys (attrs.map (fun a => if a.1 == n then (n, v) else a)) = noDupKeys attrs := by
  induction attrs with
  | nil => rfl
  | cons a tl ih =>
      simp only [List.map_cons, noDupKeys, List.any_map]
      rw [ih]
      have hfst : ∀ b : Attr,
          ((fun x => x.1 == (if a.1 == n then (n, v) else a).1) ∘
            (fun x => if x.1 == n then (n, v) else x)) b = (b.1 == a.1) := by
        intro b
        simp only [Function.comp]
        rw [fst_setfun, fst_setfun]
      rw [any_congr_fun tl _ _ hfst]

theorem noDupKeys_append_single (attrs : List Attr) (n v : String)
    (hany : attrs.any (fun a => a.1 == n) = false)
    (h : noDupKeys attrs = true) :
    noDupKeys (attrs ++ [(n, v)]) = true := by
  induction attrs with
  | nil => rfl
  | cons a tl ih =>
      simp only [List.any_cons, Bool.or_eq_false_iff] at hany
      simp only [noDupKeys, Bool.and_eq_true, Bool.not_eq_eq_eq_not, Bool.not_true] at h
      simp only [List.cons_append, noDupKeys, Bool.and_eq_true, Bool.not_eq_eq_eq_not,
        Bool.not_true]
      constructor
      · show ((tl ++ [(n, v)]).any fun b => b.1 == a.1) = false
        rw [List.any_append]
        simp only [List.any_cons, List.any_nil, Bool.or_false]
        rw [h.1, beqStr_comm n a.1, hany.1]
        rfl
      · exact ih hany.2 h.2

theorem noDupKeys_setA (attrs : List Attr) (n v : String)
    (h : noDupKeys attrs = true) : noDupKeys (setA attrs n v) = true := by
  by_cases hany : (attrs.any (fun a => a.1 == n)) = true
  · rw [setA, if_pos hany, noDupKeys_map_set]
    exact h
  · have hany2 : (attrs.any (fun a => a.1 == n)) = false := Bool.eq_false_iff.mpr hany
    rw [setA, if_neg hany]
    exact noDupKeys_append_single attrs n v hany2 h

theorem setA_setA_same (x : List Attr) (n v : String) :
    setA (setA x n v) n v = setA x n v := by
  by_cases hany : (x.any (fun a => a.1 == n)) = true
  · have hset : setA x n v = x.map (fun a => if a.1 == n then (n, v) else a) := by
      rw [setA, if_pos hany]
    rw [hset]
    have hany2 : ((x.map (fun a => if a.1 == n then (n, v) else a)).any
        (fun a => a.1 == n)) = true := by
      rw [List.any_map,
        any_congr_fun x _ _ (fun b => by simp only [Function.comp]; rw [fst_setfun])]
      exact hany
    rw [setA, if_pos hany2, List.map_map]
    apply List.map_congr_left
    intro a _
    simp only [Function.comp]
    by_cases hb : (a.1 == n) = true
    · simp [hb]
    · simp [hb]
  · have hany2 : (x.any (fun a => a.1 == n)) = false := Bool.eq_false_iff.mpr hany
    have hset : setA x n v = x ++ [(n, v)] := by
      rw [setA, if_neg hany]
    rw [hset]
    have hany3 : ((x ++ [(n, v)]).any (fun a => a.1 == n)) = true := by
      simp [List.any_append]
    rw [setA, if_pos hany3, List.map_append]
    have h1 : x.map (fun a => if a.1 == n then (n, v) else a) = x := by
      conv_rhs => rw [(List.map_id x).symm]
      apply List.map_congr_left
      intro a ha
      have : (a.1 == n) = false := Bool.eq_false_iff.mpr (List.any_eq_false.mp hany2 a ha)
      simp [this]
    have h2 : [((n : String), v)].map (fun a => if a.1 == n then (n, v) else a) =
        [(n, v)] := by
      simp
    rw [h1, h2]

theorem filter_map_set_comm (p : Attr → Bool) (n v : String)
    (hkeep : ∀ w, p (n, w) = true) (x : List Attr) :
    ((x.map (fun a => if a.1 == n then (n, v) else a)).filter p) =
      (x.filter p).map (fun a => if a.1 == n then (n, v) else a) := by
  induction x with
  | nil => rfl
  | cons a tl ih =>
      by_cases hb : (a.1 == n) = true
      · have hpa : p a = true := by rw [attr_eta_fst a n hb]; exact hkeep a.2
        simp only [List.map_cons, hb, if_true]
        rw [List.filter_cons_of_pos (hkeep v), List.filter_cons_of_pos hpa]
        simp only [List.map_cons, hb, if_true]
        rw [ih]
      · have hb2 : (a.1 == n) = false := by simpa using hb
        simp only [List.map_cons, hb2, Bool.false_eq_true, if_false]
        by_cases hpa : p a = true
        · rw [List.filter_cons_of_pos hpa, List.filter_cons_of_pos hpa]
          simp only [List.map_cons, hb2, Bool.false_eq_true, if_false]
          rw [ih]
        · rw [List.filter_cons_of_neg (by simpa using hpa),
            List.filter_cons_of_neg (by simpa using hpa)]
          exact ih

theorem filter_setA_keep (p : Attr → Bool) (x : List Attr) (n v : String)
    (hkeep : ∀ w, p (n, w) = true) :
    (setA x n v).filter p = setA (x.filter p) n v := by
  by_cases hany : (x.any (fun a => a.1 == n)) = true
  · have hany2 : ((x.filter p).any (fun a => a.1 == n)) = true := by
      obtain ⟨a, ha, hab⟩ := List.any_eq_true.mp hany
      apply List.any_eq_true.mpr
      refine ⟨a, List.mem_filter.mpr ⟨ha, ?_⟩, hab⟩
      rw [attr_eta_fst a n hab]
      exact hkeep a.2
    rw [setA, if_pos hany, setA, if_pos hany2]
    exact filter_map_set_comm p n v hkeep x
  · have hany1 : (x.any (fun a => a.1 == n)) = false := Bool.eq_false_iff.mpr hany
    have hany2 : ((x.filter p).any (fun a => a.1 == n)) = false :=
      any_filter_false p _ x hany1
    rw [setA, if_neg hany, setA, if_neg (by rw [hany2]; exact Bool.false_ne_true)]
    rw [List.filter_append]
    rw [List.filter_cons_of_pos (hkeep v)]
    rfl

theorem filter_map_set_drop (p : Attr → Bool) (n v : String)
    (hdrop : ∀ w, p (n, w) = false) (x : List Attr) :
    ((x.map (fun a => if a.1 == n then (n, v) else a)).filter p) = x.filter p := by
  induction x with
  | nil => rfl
  | cons a tl ih =>
      by_cases hb : (a.1 == n) = true
      · have hpa : p a = false := by rw [attr_eta_fst a n hb]; exact hdrop a.2
        simp only [List.map_cons, hb, if_true]
        rw [List.filter_cons_of_neg (by rw [hdrop v]; exact Bool.false_ne_true),
          List.filter_cons_of_neg (by rw [hpa]; exact Bool.false_ne_true)]
        exact ih
      · have hb2 : (a.1 == n) = false := by simpa using hb
        simp only [List.map_cons, hb2, Bool.false_eq_true, if_false]
        by_cases hpa : p a = true
        · rw [List.filter_cons_of_pos hpa, List.filter_cons_of_pos hpa, ih]
        · rw [List.filter_cons_of_neg (by simpa using hpa),
            List.filter_cons_of_neg (by simpa using hpa)]
          exact ih

theorem filter_setA_drop (p : Attr → Bool) (x : List Attr) (n v : String)
    (hdrop : ∀ w, p (n, w) = false) :
    (setA x n v).filter p = x.filter p := by
  by_cases hany : (x.any (fun a => a.1 == n)) = true
  · rw [setA, if_pos hany]
    exact filter_map_set_drop p n v hdrop x
  · rw [setA, if_neg hany, List.filter_append,
      List.filter_cons_of_neg (by rw [hdrop v]; exact Bool.false_ne_true)]
    simp

theorem normalizeLink_not_a (t : String) (h : (t == "a") = false)
    (attrs : List Attr) : normalizeLink t attrs = attrs := by
  simp [normalizeLink, h]

/-- One application of the anchor attribute pipeline is left unchanged by
a further application once the forced attribute order has settled: the
third application equals the second. -/
theorem processAttrs_fix (t : String) (attrs : List Attr)
    (h : noDupKeys attrs = true) :
    processAttrs t (processAttrs t (processAttrs t attrs)) =
      processAttrs t (processAttrs t attrs) := by
  by_cases ht : (t == "a") = true
  case neg =>
    have ht2 : (t == "a") = false := Bool.eq_false_iff.mpr ht
    have hp : ∀ ys, noDupKeys ys = true →
        processAttrs t ys = ys.filter (fun a => !(attrDisallowed t a)) := by
      intro ys hys
      simp only [processAttrs]
      rw [removeDisallowedAttrs_eq_filter t ys hys, normalizeLink_not_a t ht2]
    have h1 := hp attrs h
    have hpp : processAttrs t (processAttrs t attrs) = processAttrs t attrs := by
      rw [h1, hp _ (noDupKeys_filter _ _ h), filter_idem]
    rw [hpp]
    exact hpp
  case pos =>
    have ht3 : t = "a" := (beq_iff_eq ..).mp ht
    subst ht3
    have hkeep_rel : ∀ w, (!(attrDisallowed "a" ("rel", w))) = true := by
      intro w
      rw [attrDisallowed_rel_a]
      rfl
    have hdrop_tgt : ∀ w, (!(attrDisallowed "a" ("target", w))) = false := by
      intro w
      rw [attrDisallowed_target]
      rfl
    have nodup_b : noDupKeys (attrs.filter (fun a => !(attrDisallowed "a" a))) = true :=
      noDupKeys_filter _ _ h
    have Kb : (attrs.filter (fun a => !(attrDisallowed "a" a))).filter
        (fun a => !(attrDisallowed "a" a)) =
        attrs.filter (fun a => !(attrDisallowed "a" a)) := filter_idem _ _
    rcases hh : getA (attrs.filter (fun a => !(attrDisallowed "a" a))) "href" with _ | h0
    · have hn : normalizeLink "a" (attrs.filter (fun a => !(attrDisallowed "a" a))) =
          attrs.filter (fun a => !(attrDisallowed "a" a)) := by
        simp [normalizeLink, hh]
      have hp1 : processAttrs "a" attrs =
          attrs.filter (fun a => !(attrDisallowed "a" a)) := by
        simp only [processAttrs]
        rw [removeDisallowedAttrs_eq_filter "a" attrs h, hn]
      have hpb : processAttrs "a" (attrs.filter (fun a => !(attrDisallowed "a" a))) =
          attrs.filter (fun a => !(attrDisallowed "a" a)) := by
        simp only [processAttrs]
        rw [removeDisallowedAttrs_eq_filter "a" _ nodup_b, Kb, hn]
      rw [hp1, hpb]
      exact hpb
    · by_cases hsw : startsWithStr h0 "mailto:" = true
      · have hn : normalizeLink "a" (attrs.filter (fun a => !(attrDisallowed "a" a))) =
            attrs.filter (fun a => !(attrDisallowed "a" a)) := by
          simp [normalizeLink, hh, hsw]
        have hp1 : processAttrs "a" attrs =
            attrs.filter (fun a => !(attrDisallowed "a" a)) := by
          simp only [processAttrs]
          rw [removeDisallowedAttrs_eq_filter "a" attrs h, hn]
        have hpb : processAttrs "a" (attrs.filter (fun a => !(attrDisallowed "a" a))) =
            attrs.filter (fun a => !(attrDisallowed "a" a)) := by
          simp only [processAttrs]
          rw [removeDisallowedAttrs_eq_filter "a" _ nodup_b, Kb, hn]
        rw [hp1, hpb]
        exact hpb
      · have hsw2 : startsWithStr h0 "mailto:" = false := Bool.eq_false_iff.mpr hsw
        have hn : normalizeLink "a" (attrs.filter (fun a => !(attrDisallowed "a" a))) =
            setA (setA (attrs.filter (fun a => !(attrDisallowed "a" a)))
              "target" "_blank") "rel" "external noopener noreferrer" := by
          simp [normalizeLink, hh, hsw2]
        have hp1 : processAttrs "a" attrs =
            setA (setA (attrs.filter (fun a => !(attrDisallowed "a" a)))
              "target" "_blank") "rel" "external noopener noreferrer" := by
          simp only [processAttrs]
          rw [removeDisallowedAttrs_eq_filter "a" attrs h, hn]
        have nodup_c : noDupKeys (setA (setA (attrs.filter
            (fun a => !(attrDisallowed "a" a))) "target" "_blank") "rel"
            "external noopener noreferrer") = true :=
          noDupKeys_setA _ _ _ (noDupKeys_setA _ _ _ nodup_b)
        have KC : (setA (setA (attrs.filter (fun a => !(attrDisallowed "a" a)))
            "target" "_blank") "rel" "external noopener noreferrer").filter
              (fun a => !(attrDisallowed "a" a)) =
            setA (attrs.filter (fun a => !(attrDisallowed "a" a))) "rel"
              "external noopener noreferrer" := by
          rw [filter_setA_keep _ _ _ _ hkeep_rel, filter_setA_drop _ _ _ _ hdrop_tgt, Kb]
        have hrefK : getA (setA (attrs.filter (fun a => !(attrDisallowed "a" a)))
            "rel" "external noopener noreferrer") "href" = some h0 := by
          rw [getA_setA_other _ _ _ _ (by decide)]
          exact hh
        have hnK : normalizeLink "a" (setA (attrs.filter
            (fun a => !(attrDisallowed "a" a))) "rel" "external noopener noreferrer") =
            setA (setA (setA (attrs.filter (fun a => !(attrDisallowed "a" a)))
              "rel" "external noopener noreferrer") "target" "_blank") "rel"
              "external noopener noreferrer" := by
          simp [normalizeLink, hrefK, hsw2]
        have hpc : processAttrs "a" (setA (setA (attrs.filter
            (fun a => !(attrDisallowed "a" a))) "target" "_blank") "rel"
            "external noopener noreferrer") =
            setA (setA (setA (attrs.filter (fun a => !(attrDisallowed "a" a)))
              "rel" "external noopener noreferrer") "target" "_blank") "rel"
              "external noopener noreferrer" := by
          simp only [processAttrs]
          rw [removeDisallowedAttrs_eq_filter "a" _ nodup_c, KC, hnK]
        have nodup_c2 : noDupKeys (setA (setA (setA (attrs.filter
            (fun a => !(attrDisallowed "a" a))) "rel" "external noopener noreferrer")
            "target" "_blank") "rel" "external noopener noreferrer") = true :=
          noDupKeys_setA _ _ _ (noDupKeys_setA _ _ _ (noDupKeys_setA _ _ _ nodup_b))
        have KC2 : (setA (setA (setA (attrs.filter (fun a => !(attrDisallowed "a" a)))
            "rel" "external noopener noreferrer") "target" "_blank") "rel"
            "external noopener noreferrer").filter (fun a => !(attrDisallowed "a" a)) =
            setA (attrs.filter (fun a => !(attrDisallowed "a" a))) "rel"
              "external noopener noreferrer" := by
          rw [filter_setA_keep _ _ _ _ hkeep_rel, filter_setA_drop _ _ _ _ hdrop_tgt,
            filter_setA_keep _ _ _ _ hkeep_rel, Kb, setA_setA_same]
        have hpc2 : processAttrs "a" (setA (setA (setA (attrs.filter
            (fun a => !(attrDisallowed "a" a))) "rel" "external noopener noreferrer")
            "target" "_blank") "rel" "external noopener noreferrer") =
            setA (setA (setA (attrs.filter (fun a => !(attrDisallowed "a" a)))
              "rel" "external noopener noreferrer") "target" "_blank") "rel"
              "external noopener noreferrer" := by
          simp only [processAttrs]
          rw [removeDisallowedAttrs_eq_filter "a" _ nodup_c2, KC2, hnK]
        rw [hp1, hpc]
        exact hpc2

theorem noDupKeys_normalizeLink (t : String) (ys : List Attr)
    (h : noDupKeys ys = true) : noDupKeys (normalizeLink t ys) = true := by
  by_cases ht : (t == "a") = true
  · rcases hh : getA ys "href" with _ | h0
    · simpa [normalizeLink, ht, hh] using h
    · by_cases hsw : startsWithStr h0 "mailto:" = true
      · simpa [normalizeLink, ht, hh, hsw] using h
      · have hsw2 : startsWithStr h0 "mailto:" = false := Bool.eq_false_iff.mpr hsw
        have : normalizeLink t ys =
            setA (setA ys "target" "_blank") "rel" "external noopener noreferrer" := by
          simp [normalizeLink, ht, hh, hsw2]
        rw [this]
        exact noDupKeys_setA _ _ _ (noDupKeys_setA _ _ _ h)
  · have ht2 : (t == "a") = false := Bool.eq_false_iff.mpr ht
    rw [normalizeLink_not_a t ht2]
    exact h

theorem processAttrs_nodup (t : String) (a : List Attr)
    (h : noDupKeys a = true) : noDupKeys (processAttrs t a) = true := by
  simp only [processAttrs]
  apply noDupKeys_normalizeLink
  rw [removeDisallowedAttrs_eq_filter t a h]
  exact noDupKeys_filter _ _ h

theorem isForbidden_elem_eq (j j2 : Nat) (t : String) (a a2 : List Attr)
    (cs cs2 : HForest) :
    isForbidden (.elem j t a cs) = isForbidden (.elem j2 t a2 cs2) := rfl

theorem getA_processAttrs_type_input (a : List Attr) (h : noDupKeys a = true) :
    getA (processAttrs "input" a) "type" = getA a "type" := by
  simp only [processAttrs]
  rw [normalizeLink_not_a "input" (by decide),
    removeDisallowedAttrs_eq_filter "input" a h]
  apply getA_filter_keepAll
  intro v
  rfl

/-- A kept element stays kept after its attributes are processed: tag
classification depends only on the tag, except for `input`, whose `type`
attribute is preserved by the attribute pipeline. -/
theorem isAllowedTag_stable (j j2 : Nat) (t : String) (a : List Attr)
    (cs cs2 : HForest) (hnd : noDupKeys a = true)
    (h : isAllowedTag (.elem j t a cs) = true) :
    isAllowedTag (.elem j2 t (processAttrs (toLowerStr t) a) cs2) = true := by
  have hunfold : ∀ (j3 : Nat) (a3 : List Attr) (cs3 : HForest),
      isAllowedTag (.elem j3 t a3 cs3) =
        (if toLowerStr t == "input" then getA a3 "type" == some "checkbox"
         else isAllowedTagName (toLowerStr t)) := fun _ _ _ => rfl
  rw [hunfold] at h
  rw [hunfold]
  by_cases hinput : (toLowerStr t == "input") = true
  · have ht : toLowerStr t = "input" := (beq_iff_eq ..).mp hinput
    rw [if_pos hinput] at h
    rw [if_pos hinput, ht, getA_processAttrs_type_input a hnd]
    exact h
  · rw [if_neg hinput] at h
    rw [if_neg hinput]
    exact h

/-- Every element of the forest was classified `Keep` and its attribute
list is the result of one attribute-pipeline pass over a duplicate-free
list. -/
def OnceP : HForest → Prop
  | .nil => True
  | .cons (.text _ _) rest => OnceP rest
  | .cons (.elem j t a cs) rest =>
      isForbidden (.elem j t a cs) = false ∧ isAllowedTag (.elem j t a cs) = true ∧
      (∃ a0, noDupKeys a0 = true ∧ a = processAttrs (toLowerStr t) a0) ∧
      OnceP cs ∧ OnceP rest

/-- Every element of the forest is kept and its attribute list is a fixed
point of the attribute pipeline. -/
def StableF : HForest → Prop
  | .nil => True
  | .cons (.text _ _) rest => StableF rest
  | .cons (.elem j t a cs) rest =>
      isForbidden (.elem j t a cs) = false ∧ isAllowedTag (.elem j t a cs) = true ∧
      processAttrs (toLowerStr t) a = a ∧ StableF cs ∧ StableF rest

theorem OnceP_appF (F G : HForest) (hf : OnceP F) (hg : OnceP G) :
    OnceP (appF F G) := by
  induction F using forest_ind with
  | hnil => exact hg
  | htext i s rest ih =>
      simp only [OnceP] at hf
      exact ih hf
  | helem i t a cs rest ihc ihr =>
      simp only [OnceP, appF] at hf ⊢
      exact ⟨hf.1, hf.2.1, hf.2.2.1, hf.2.2.2.1, ihr hf.2.2.2.2⟩

theorem wfAttrsF_appF (F G : HForest) (hf : wfAttrsF F = true)
    (hg : wfAttrsF G = true) : wfAttrsF (appF F G) = true := by
  induction F using forest_ind with
  | hnil => exact hg
  | htext i s rest ih =>
      simp only [wfAttrsF] at hf
      simp only [appF, wfAttrsF]
      exact ih hf
  | helem i t a cs rest ihc ihr =>
      simp only [wfAttrsF, Bool.and_eq_true] at hf
      simp only [appF, wfAttrsF, Bool.and_eq_true]
      exact ⟨⟨hf.1.1, hf.1.2⟩, ihr hf.2⟩

theorem OnceP_sanitizeF (F : HForest) (h : wfAttrsF F = true) :
    OnceP (sanitizeF F) := by
  induction F using forest_ind with
  | hnil => trivial
  | htext i s rest ih =>
      simp only [wfAttrsF] at h
      show OnceP (.cons (.text i s) (sanitizeF rest))
      simp only [OnceP]
      exact ih h
  | helem i t a cs rest ihc ihr =>
      simp only [wfAttrsF, Bool.and_eq_true] at h
      obtain ⟨⟨hnd, hcs⟩, hrest⟩ := h
      by_cases hf : isForbidden (.elem i t a cs) = true
      · have : sanitizeF (.cons (.elem i t a cs) rest) = sanitizeF rest := by
          simp [sanitizeF_cons, sanitizeN, hf, appF]
        rw [this]
        exact ihr hrest
      · have hf2 : isForbidden (.elem i t a cs) = false := Bool.eq_false_iff.mpr hf
        by_cases ha : isAllowedTag (.elem i t a cs) = true
        · have : sanitizeF (.cons (.elem i t a cs) rest) =
              .cons (.elem i t (processAttrs (toLowerStr t) a) (sanitizeF cs))
                (sanitizeF rest) := by
            simp [sanitizeF_cons, sanitizeN, hf2, ha, appF]
          rw [this]
          simp only [OnceP]
          refine ⟨?_, ?_, ⟨a, hnd, rfl⟩, ihc hcs, ihr hrest⟩
          · rw [isForbidden_elem_eq _ i _ _ a _ cs]
            exact hf2
          · exact isAllowedTag_stable i i t a cs (sanitizeF cs) hnd ha
        · have ha2 : isAllowedTag (.elem i t a cs) = false := Bool.eq_false_iff.mpr ha
          have : sanitizeF (.cons (.elem i t a cs) rest) =
              appF (sanitizeF cs) (sanitizeF rest) := by
            simp [sanitizeF_cons, sanitizeN, hf2, ha2]
          rw [this]
          exact OnceP_appF _ _ (ihc hcs) (ihr hrest)

theorem StableF_sanitizeF_of_OnceP (G : HForest) (h : OnceP G) :
    StableF (sanitizeF G) := by
  induction G using forest_ind with
  | hnil => trivial
  | htext i s rest ih =>
      simp only [OnceP] at h
      show StableF (.cons (.text i s) (sanitizeF rest))
      simp only [StableF]
      exact ih h
  | helem i t a cs rest ihc ihr =>
      simp only [OnceP] at h
      obtain ⟨hf, ha, ⟨a0, hnd0, haeq⟩, hcs, hrest⟩ := h
      have hsan : sanitizeF (.cons (.elem i t a cs) rest) =
          .cons (.elem i t (processAttrs (toLowerStr t) a) (sanitizeF cs))
            (sanitizeF rest) := by
        simp [sanitizeF_cons, sanitizeN, hf, ha, appF]
      rw [hsan]
      simp only [StableF]
      have hnd : noDupKeys a = true := by
        rw [haeq]
        exact processAttrs_nodup _ _ hnd0
      refine ⟨?_, ?_, ?_, ihc hcs, ihr hrest⟩
      · rw [isForbidden_elem_eq _ i _ _ a _ cs]
        exact hf
      · exact isAllowedTag_stable i i t a cs (sanitizeF cs) hnd ha
      · rw [haeq]
        exact processAttrs_fix (toLowerStr t) a0 hnd0

theorem sanitizeF_of_StableF (G : HForest) (h : StableF G) : sanitizeF G = G := by
  induction G using forest_ind with
  | hnil => rfl
  | htext i s rest ih =>
      simp only [StableF] at h
      show HForest.cons (.text i s) (sanitizeF rest) = _
      rw [ih h]
  | helem i t a cs rest ihc ihr =>
      simp only [StableF] at h
      obtain ⟨hf, ha, hfix, hcs, hrest⟩ := h
      have hsan : sanitizeF (.cons (.elem i t a cs) rest) =
          .cons (.elem i t (processAttrs (toLowerStr t) a) (sanitizeF cs))
            (sanitizeF rest) := by
        simp [sanitizeF_cons, sanitizeN, hf, ha, appF]
      rw [hsan, hfix, ihc hcs, ihr hrest]

/-- From the second application onward the sanitizer is a fixed point:
the third pass changes nothing over the second. -/
theorem sanitizeF_three_eq_two (F : HForest) (h : wfAttrsF F = true) :
    sanitizeF (sanitizeF (sanitizeF F)) = sanitizeF (sanitizeF F) :=
  sanitizeF_of_StableF _ (StableF_sanitizeF_of_OnceP _ (OnceP_sanitizeF F h))

theorem nodup_idsF_sanitizeF (F : HForest) (h : (idsF F).Nodup) :
    (idsF (sanitizeF F)).Nodup := by
  induction F using forest_ind with
  | hnil => exact h
  | htext i s rest ih =>
      simp only [idsF, List.nodup_cons] at h
      show (idsF (.cons (.text i s) (sanitizeF rest))).Nodup
      simp only [idsF, List.nodup_cons]
      exact ⟨fun hm => h.1 (idsF_sanitizeF_subset rest hm), ih h.2⟩
  | helem i t a cs rest ihc ihr =>
      simp only [idsF, List.nodup_cons, List.nodup_append, List.mem_append, not_or] at h
      obtain ⟨⟨hjc, hjr⟩, hc, hr, hd⟩ := h
      have hdisj : (idsF (sanitizeF cs)).Disjoint (idsF (sanitizeF rest)) := by
        intro x hxc hxr
        exact hd (idsF_sanitizeF_subset cs hxc) (idsF_sanitizeF_subset rest hxr)
      by_cases hf : isForbidden (.elem i t a cs) = true
      · have : sanitizeF (.cons (.elem i t a cs) rest) = sanitizeF rest := by
          simp [sanitizeF_cons, sanitizeN, hf, appF]
        rw [this]
        exact ihr hr
      · have hf2 : isForbidden (.elem i t a cs) = false := Bool.eq_false_iff.mpr hf
        by_cases ha : isAllowedTag (.elem i t a cs) = true
        · have : sanitizeF (.cons (.elem i t a cs) rest) =
              .cons (.elem i t (processAttrs (toLowerStr t) a) (sanitizeF cs))
                (sanitizeF rest) := by
            simp [sanitizeF_cons, sanitizeN, hf2, ha, appF]
          rw [this]
          simp only [idsF, List.nodup_cons, List.nodup_append, List.mem_append, not_or]
          refine ⟨⟨fun hm => hjc (idsF_sanitizeF_subset cs hm),
            fun hm => hjr (idsF_sanitizeF_subset rest hm)⟩, ihc hc, ihr hr, hdisj⟩
        · have ha2 : isAllowedTag (.elem i t a cs) = false := Bool.eq_false_iff.mpr ha
          have : sanitizeF (.cons (.elem i t a cs) rest) =
              appF (sanitizeF cs) (sanitizeF rest) := by
            simp [sanitizeF_cons, sanitizeN, hf2, ha2]
          rw [this, idsF_appF]
          exact List.nodup_append.mpr ⟨ihc hc, ihr hr, hdisj⟩

theorem wfAttrsF_sanitizeF (F : HForest) (h : wfAttrsF F = true) :
    wfAttrsF (sanitizeF F) = true := by
  induction F using forest_ind with
  | hnil => exact h
  | htext i s rest ih =>
      simp only [wfAttrsF] at h
      show wfAttrsF (.cons (.text i s) (sanitizeF rest)) = true
      simp only [wfAttrsF]
      exact ih h
  | helem i t a cs rest ihc ihr =>
      simp only [wfAttrsF, Bool.and_eq_true] at h
      obtain ⟨⟨hnd, hcs⟩, hrest⟩ := h
      by_cases hf : isForbidden (.elem i t a cs) = true
      · have : sanitizeF (.cons (.elem i t a cs) rest) = sanitizeF rest := by
          simp [sanitizeF_cons, sanitizeN, hf, appF]
        rw [this]
        exact ihr hrest
      · have hf2 : isForbidden (.elem i t a cs) = false := Bool.eq_false_iff.mpr hf
        by_cases ha : isAllowedTag (.elem i t a cs) = true
        · have : sanitizeF (.cons (.elem i t a cs) rest) =
              .cons (.elem i t (processAttrs (toLowerStr t) a) (sanitizeF cs))
                (sanitizeF rest) := by
            simp [sanitizeF_cons, sanitizeN, hf2, ha, appF]
          rw [this]
          simp only [wfAttrsF, Bool.and_eq_true]
          exact ⟨⟨processAttrs_nodup _ _ hnd, ihc hcs⟩, ihr hrest⟩
        · have ha2 : isAllowedTag (.elem i t a cs) = false := Bool.eq_false_iff.mpr ha
          have : sanitizeF (.cons (.elem i t a cs) rest) =
              appF (sanitizeF cs) (sanitizeF rest) := by
            simp [sanitizeF_cons, sanitizeN, hf2, ha2]
          rw [this]
          exact wfAttrsF_appF _ _ (ihc hcs) (ihr hrest)

theorem getA_filter_dropMem (p : Attr → Bool) (n : String) (attrs : List Attr)
    (h : ∀ x ∈ attrs, x.1 = n → p x = false) :
    getA (attrs.filter p) n = none := by
  induction attrs with
  | nil => rfl
  | cons a tl ih =>
      have ih2 := ih fun x hx => h x (List.mem_cons_of_mem _ hx)
      by_cases hb : (a.1 == n) = true
      · have hp : p a = false := h a (List.mem_cons_self a tl) ((beq_iff_eq ..).mp hb)
        rw [List.filter_cons_of_neg (by rw [hp]; exact Bool.false_ne_true)]
        exact ih2
      · have hb2 : (a.1 == n) = false := Bool.eq_false_iff.mpr hb
        by_cases hp : p a = true
        · rw [List.filter_cons_of_pos hp]
          simp only [getA, List.find?, hb2]
          exact ih2
        · rw [List.filter_cons_of_neg (by simpa using hp)]
          exact ih2

/-- The `target` attribute never survives attribute filtering: it is in
no static allow list and is not an `href`/`src` name. -/
theorem getA_removeDisallowed_target (tag : String) (attrs : List Attr) :
    getA (removeDisallowedAttrs tag attrs) "target" = none := by
  unfold removeDisallowedAttrs
  rw [foldl_removeA]
  apply getA_filter_dropMem
  intro x hx hxn
  have hxd : attrDisallowed tag x = true := by
    have : x = ("target", x.2) := Prod.ext hxn rfl
    rw [this]
    exact attrDisallowed_target tag x.2
  have hmem : x ∈ attrs.filter (fun a => attrDisallowed tag a) :=
    List.mem_filter.mpr ⟨hx, hxd⟩
  have hany : ((attrs.filter (fun a => attrDisallowed tag a)).any
      (fun a => a.1 == x.1)) = true :=
    List.any_eq_true.mpr ⟨x, hmem, (beq_iff_eq ..).mpr rfl⟩
  rw [hany]
  rfl

theorem getA_rd_keep (tag n : String) (attrs : List Attr)
    (hnd : noDupKeys attrs = true)
    (hkeep : ∀ v, attrDisallowed tag (n, v) = false) :
    getA (removeDisallowedAttrs tag attrs) n = getA attrs n := by
  rw [removeDisallowedAttrs_eq_filter tag attrs hnd]
  apply getA_filter_keepAll
  intro v
  rw [hkeep v]
  rfl

theorem normalizeLink_a_none (ys : List Attr) (h : getA ys "href" = none) :
    normalizeLink "a" ys = ys := by
  simp [normalizeLink, h]

theorem normalizeLink_a_mailto (ys : List Attr) (h0 : String)
    (h : getA ys "href" = some h0) (hsw : startsWithStr h0 "mailto:" = true) :
    normalizeLink "a" ys = ys := by
  simp [normalizeLink, h, hsw]

theorem normalizeLink_a_force (ys : List Attr) (h0 : String)
    (h : getA ys "href" = some h0) (hsw : startsWithStr h0 "mailto:" = false) :
    normalizeLink "a" ys =
      setA (setA ys "target" "_blank") "rel" "external noopener noreferrer" := by
  simp [normalizeLink, h, hsw]

theorem getA_normalizeLink_href (t : String) (ys : List Attr) :
    getA (normalizeLink t ys) "href" = getA ys "href" := by
  by_cases ht : (t == "a") = true
  · have ht3 : t = "a" := (beq_iff_eq ..).mp ht
    subst ht3
    rcases hh : getA ys "href" with _ | h0
    · rw [normalizeLink_a_none ys hh, hh]
    · by_cases hsw : startsWithStr h0 "mailto:" = true
      · rw [normalizeLink_a_mailto ys h0 hh hsw, hh]
      · rw [normalizeLink_a_force ys h0 hh (Bool.eq_false_iff.mpr hsw)]
        rw [getA_setA_other _ _ _ _ (by decide), getA_setA_other _ _ _ _ (by decide)]
        exact hh
  · rw [normalizeLink_not_a t (Bool.eq_false_iff.mpr ht)]

theorem idsN_subset_of_mem_allNodes (F : HForest) (m : HNode)
    (hm : m ∈ allNodesF F) : ∀ i ∈ idsN m, i ∈ idsF F := by
  induction F using forest_ind with
  | hnil => cases hm
  | htext j s rest ih =>
      intro i hi
      simp only [allNodesF, List.mem_cons] at hm
      simp only [idsF, List.mem_cons]
      rcases hm with rfl | hm2
      · simp only [idsN, List.mem_singleton] at hi
        exact Or.inl hi
      · exact Or.inr (ih hm2 i hi)
  | helem j t a cs rest ihc ihr =>
      intro i hi
      simp only [allNodesF, List.mem_cons, List.mem_append] at hm
      simp only [idsF, List.mem_cons, List.mem_append]
      rcases hm with rfl | hm2 | hm2
      · simp only [idsN, List.mem_cons] at hi
        rcases hi with h1 | h1
        · exact Or.inl h1
        · exact Or.inr (Or.inl h1)
      · exact Or.inr (Or.inl (ihc hm2 i hi))
      · exact Or.inr (Or.inr (ihr hm2 i hi))

/-- No identity from the subtree of a forbidden node of the input
survives in the recursive sanitizer. -/
theorem forbidden_not_in_sanitizeF (F : HForest) (h : (idsF F).Nodup)
    (m : HNode) (hm : m ∈ allNodesF F) (hfm : isForbidden m = true) :
    ∀ i ∈ idsN m, i ∉ idsF (sanitizeF F) := by
  induction F using forest_ind with
  | hnil => cases hm
  | htext j s rest ih =>
      intro i hi hmem
      simp only [idsF, List.nodup_cons] at h
      simp only [allNodesF, List.mem_cons] at hm
      rcases hm with rfl | hm2
      · rw [isForbidden_text] at hfm
        exact Bool.false_ne_true hfm
      · have hir : i ∈ idsF rest := idsN_subset_of_mem_allNodes rest m hm2 i hi
        show False
        have : idsF (sanitizeF (.cons (.text j s) rest)) =
            j :: idsF (sanitizeF rest) := rfl
        rw [this] at hmem
        rcases List.mem_cons.mp hmem with rfl | hmem2
        · exact h.1 hir
        · exact ih h.2 hm2 i hi hmem2
  | helem j t a cs rest ihc ihr =>
      intro i hi hmem
      simp only [idsF, List.nodup_cons, List.nodup_append, List.mem_append, not_or] at h
      obtain ⟨⟨hjc, hjr⟩, hc, hr, hd⟩ := h
      simp only [allNodesF, List.mem_cons, List.mem_append] at hm
      by_cases hf : isForbidden (.elem j t a cs) = true
      · have hout : sanitizeF (.cons (.elem j t a cs) rest) = sanitizeF rest := by
          simp [sanitizeF_cons, sanitizeN, hf, appF]
        rw [hout] at hmem
        have hirest : i ∈ idsF rest := idsF_sanitizeF_subset rest hmem
        rcases hm with rfl | hm2 | hm2
        · simp only [idsN, List.mem_cons] at hi
          rcases hi with rfl | h1
          · exact hjr hirest
          · exact hd h1 hirest
        · exact hd (idsN_subset_of_mem_allNodes cs m hm2 i hi) hirest
        · exact ihr hr hm2 i hi hmem
      · have hf2 : isForbidden (.elem j t a cs) = false := Bool.eq_false_iff.mpr hf
        have hmcase : m ∈ allNodesF cs ∨ m ∈ allNodesF rest := by
          rcases hm with rfl | hm2 | hm2
          · rw [hf2] at hfm
            exact absurd hfm Bool.false_ne_true
          · exact Or.inl hm2
          · exact Or.inr hm2
        by_cases ha : isAllowedTag (.elem j t a cs) = true
        · have hout : sanitizeF (.cons (.elem j t a cs) rest) =
              .cons (.elem j t (processAttrs (toLowerStr t) a) (sanitizeF cs))
                (sanitizeF rest) := by
            simp [sanitizeF_cons, sanitizeN, hf2, ha, appF]
          rw [hout] at hmem
          simp only [idsF, List.mem_cons, List.mem_append] at hmem
          rcases hmcase with hm2 | hm2
          · have hics : i ∈ idsF cs := idsN_subset_of_mem_allNodes cs m hm2 i hi
            rcases hmem with rfl | hmem2 | hmem2
            · exact hjc hics
            · exact ihc hc hm2 i hi hmem2
            · exact hd hics (idsF_sanitizeF_subset rest hmem2)
          · have hirest : i ∈ idsF rest := idsN_subset_of_mem_allNodes rest m hm2 i hi
            rcases hmem with rfl | hmem2 | hmem2
            · exact hjr hirest
            · exact hd (idsF_sanitizeF_subset cs hmem2) hirest
            · exact ihr hr hm2 i hi hmem2
        · have ha2 : isAllowedTag (.elem j t a cs) = false := Bool.eq_false_iff.mpr ha
          have hout : sanitizeF (.cons (.elem j t a cs) rest) =
              appF (sanitizeF cs) (sanitizeF rest) := by
            simp [sanitizeF_cons, sanitizeN, hf2, ha2]
          rw [hout, idsF_appF] at hmem
          rcases hmcase with hm2 | hm2
          · have hics : i ∈ idsF cs := idsN_subset_of_mem_allNodes cs m hm2 i hi
            rcases List.mem_append.mp hmem with hmem2 | hmem2
            · exact ihc hc hm2 i hi hmem2
            · exact hd hics (idsF_sanitizeF_subset rest hmem2)
          · have hirest : i ∈ idsF rest := idsN_subset_of_mem_allNodes rest m hm2 i hi
            rcases List.mem_append.mp hmem with hmem2 | hmem2
            · exact hd (idsF_sanitizeF_subset cs hmem2) hirest
            · exact ihr hr hm2 i hi hmem2

/-! Claim theorems. -/

/-- C1: evaluation of the code at the failing input.  For the input
`<img src="javascript:alert(1)">` the sanitizer keeps the `img` tag with
its `src` attribute intact: `src` is in the static allow list of `img`
(`isAllowedAttr`), so the filter callback returns `false` before the
http/https URI check is ever consulted, even though the value is not a
web URI.  The spec instead demands that the `src` be stripped. -/
theorem claim1_code_eval :
    sanitizeHtml (.cons (.elem 1 "img" [("src", "javascript:alert(1)")] .nil) .nil) =
      .cons (.elem 1 "img" [("src", "javascript:alert(1)")] .nil) .nil ∧
    isAllowedAttr "img" "src" = true ∧
    isWebUri "javascript:alert(1)" = false ∧
    attrDisallowed "img" ("src", "javascript:alert(1)") = false :=
  ⟨rfl, rfl, by decide, rfl⟩

/-- C2: for every input tree with unique node identities, no node of the
subtree of a forbidden element (the element itself included) appears in
the output of the sanitizer, regardless of whether the descendants are
individually allowed. -/
theorem claim2 : ∀ (F : HForest), (idsF F).Nodup →
    ∀ m ∈ allNodesF F, isForbidden m = true →
    ∀ i ∈ idsN m, i ∉ idsF (sanitizeHtml F) := by
  intro F h m hm hfm i hi hmem
  rw [sanitizeHtml_eq_sanitizeF F h] at hmem
  exact forbidden_not_in_sanitizeF F h m hm hfm i hi hmem

theorem claim2_witness :
    1 ∉ idsF (sanitizeHtml (.cons (.elem 1 "script" []
        (.cons (.text 2 "x") .nil)) (.cons (.text 3 "y") .nil))) ∧
    2 ∉ idsF (sanitizeHtml (.cons (.elem 1 "script" []
        (.cons (.text 2 "x") .nil)) (.cons (.text 3 "y") .nil))) :=
  ⟨claim2 _ (by decide) (.elem 1 "script" [] (.cons (.text 2 "x") .nil))
      (List.mem_cons_self _ _) (by decide) 1 (by decide),
    claim2 _ (by decide) (.elem 1 "script" [] (.cons (.text 2 "x") .nil))
      (List.mem_cons_self _ _) (by decide) 2 (by decide)⟩

/-- C3: on a kept anchor, when the post-filter `href` is present and does
not start with `mailto:`, the normalizer force-sets
`target="_blank"` and `rel="external noopener noreferrer"`, overwriting
any input-supplied values (the statement quantifies over all input
attribute lists); when the `href` starts with `mailto:` (with a valid
email remainder), the `href` is retained unchanged and no `target` or
`rel` value is forced: the output has no `target` and the `rel` is
exactly the input one. -/
theorem claim3 : ∀ (attrs : List Attr), noDupKeys attrs = true →
    ((∀ h0, getA (processAttrs "a" attrs) "href" = some h0 →
        startsWithStr h0 "mailto:" = false →
        getA (processAttrs "a" attrs) "target" = some "_blank" ∧
        getA (processAttrs "a" attrs) "rel" = some "external noopener noreferrer") ∧
      (∀ h0, getA attrs "href" = some h0 → startsWithStr h0 "mailto:" = true →
        isValidEmail (dropStr h0 7) = true →
        getA (processAttrs "a" attrs) "href" = some h0 ∧
        getA (processAttrs "a" attrs) "target" = none ∧
        getA (processAttrs "a" attrs) "rel" = getA attrs "rel")) := by
  intro attrs hnd
  constructor
  · intro h0 hh hsw
    simp only [processAttrs] at hh
    rw [getA_normalizeLink_href] at hh
    have hforce : processAttrs "a" attrs =
        setA (setA (removeDisallowedAttrs "a" attrs) "target" "_blank") "rel"
          "external noopener noreferrer" := by
      simp only [processAttrs]
      rw [normalizeLink_a_force _ h0 hh hsw]
    constructor
    · rw [hforce, getA_setA_other _ _ _ _ (by decide), getA_setA_same]
    · rw [hforce, getA_setA_same]
  · intro h0 hh hsw _hval
    have hrd : getA (removeDisallowedAttrs "a" attrs) "href" = some h0 := by
      rw [getA_rd_keep "a" "href" attrs hnd attrDisallowed_href_a]
      exact hh
    have hid : processAttrs "a" attrs = removeDisallowedAttrs "a" attrs := by
      simp only [processAttrs]
      rw [normalizeLink_a_mailto _ h0 hrd hsw]
    refine ⟨?_, ?_, ?_⟩
    · rw [hid]
      exact hrd
    · rw [hid]
      exact getA_removeDisallowed_target "a" attrs
    · rw [hid]
      exact getA_rd_keep "a" "rel" attrs hnd attrDisallowed_rel_a

theorem claim3_witness :
    (getA (processAttrs "a"
        [("href", "https://example.com"), ("target", "_self"), ("rel", "me")])
        "target" = some "_blank" ∧
      getA (processAttrs "a"
        [("href", "https://example.com"), ("target", "_self"), ("rel", "me")])
        "rel" = some "external noopener noreferrer") ∧
    (getA (processAttrs "a" [("href", "mailto:user@example.com")]) "href" =
        some "mailto:user@example.com" ∧
      getA (processAttrs "a" [("href", "mailto:user@example.com")]) "target" = none ∧
      getA (processAttrs "a" [("href", "mailto:user@example.com")]) "rel" =
        getA [("href", "mailto:user@example.com")] "rel") :=
  ⟨(claim3 _ (by decide)).1 "https://example.com" (by decide) (by decide),
    (claim3 _ (by decide)).2 "mailto:user@example.com" (by decide) (by decide)
      (by decide)⟩

/-- C4, counterexample: the sanitizer is not idempotent.  On
`<a href="https://example.com">x</a>` the first pass appends `target`
then `rel`; re-sanitizing strips the (disallowed) `target` and re-appends
it after `rel`, so the second output differs from the first in attribute
order. -/
theorem claim4_counterexample :
    sanitizeHtml (sanitizeHtml (.cons (.elem 1 "a"
        [("href", "https://example.com")] (.cons (.text 2 "x") .nil)) .nil)) ≠
      sanitizeHtml (.cons (.elem 1 "a"
        [("href", "https://example.com")] (.cons (.text 2 "x") .nil)) .nil) := by
  intro h
  have h2 : HForest.cons (.elem 1 "a"
      [("href", "https://example.com"), ("rel", "external noopener noreferrer"),
        ("target", "_blank")] (.cons (.text 2 "x") .nil)) .nil =
      .cons (.elem 1 "a"
        [("href", "https://example.com"), ("target", "_blank"),
          ("rel", "external noopener noreferrer")] (.cons (.text 2 "x") .nil)) .nil := h
  simp at h2

/-- C4, amended: the sanitizer is idempotent from the second application
onward: a third pass equals the second pass on every well-formed input
tree (unique node identities and unique attribute names).  Strict
idempotence `sanitize (sanitize x) = sanitize x` fails only in the
relative order of the forced `target`/`rel` attributes on kept
anchors. -/
theorem claim4_amended : ∀ (F : HForest), (idsF F).Nodup → wfAttrsF F = true →
    sanitizeHtml (sanitizeHtml (sanitizeHtml F)) = sanitizeHtml (sanitizeHtml F) := by
  intro F h1 h2
  have e1 : sanitizeHtml F = sanitizeF F := sanitizeHtml_eq_sanitizeF F h1
  have h1b : (idsF (sanitizeF F)).Nodup := nodup_idsF_sanitizeF F h1
  have e2 : sanitizeHtml (sanitizeF F) = sanitizeF (sanitizeF F) :=
    sanitizeHtml_eq_sanitizeF _ h1b
  have h1c : (idsF (sanitizeF (sanitizeF F))).Nodup := nodup_idsF_sanitizeF _ h1b
  have e3 : sanitizeHtml (sanitizeF (sanitizeF F)) =
      sanitizeF (sanitizeF (sanitizeF F)) := sanitizeHtml_eq_sanitizeF _ h1c
  rw [e1, e2, e3]
  exact sanitizeF_three_eq_two F h2

theorem claim4_witness :
    sanitizeHtml (sanitizeHtml (sanitizeHtml (.cons (.elem 1 "a"
        [("href", "https://example.com")] (.cons (.text 2 "x") .nil)) .nil))) =
      sanitizeHtml (sanitizeHtml (.cons (.elem 1 "a"
        [("href", "https://example.com")] (.cons (.text 2 "x") .nil)) .nil)) :=
  claim4_amended _ (by decide) (by decide)

/-- C5: an element that is neither forbidden nor allowed is unwrapped:
its markup disappears and its sanitized children are spliced into its
former position among its siblings, before the sanitized remainder, in
their original order; in particular `<marquee>hello</marquee>` sanitizes
to `hello`. -/
theorem claim5 : (∀ (i : Nat) (tag : String) (attrs : List Attr) (cs rest : HForest),
      isForbidden (.elem i tag attrs cs) = false →
      isAllowedTag (.elem i tag attrs cs) = false →
      (idsF (HForest.cons (.elem i tag attrs cs) rest)).Nodup →
      sanitizeHtml (.cons (.elem i tag attrs cs) rest) =
        appF (sanitizeHtml cs) (sanitizeHtml rest)) ∧
    sanitizeHtml (.cons (.elem 1 "marquee" [] (.cons (.text 2 "hello") .nil)) .nil) =
      .cons (.text 2 "hello") .nil := by
  constructor
  · intro i tag attrs cs rest hf ha h
    have h2 := h
    simp only [idsF, List.nodup_cons, List.nodup_append, List.mem_append, not_or] at h2
    obtain ⟨_, hc, hr, _⟩ := h2
    rw [sanitizeHtml_eq_sanitizeF _ h, sanitizeHtml_eq_sanitizeF cs hc,
      sanitizeHtml_eq_sanitizeF rest hr]
    simp [sanitizeF_cons, sanitizeN, hf, ha]
  · rfl

theorem claim5_witness :
    sanitizeHtml (.cons (.elem 1 "marquee" [] (.cons (.text 2 "hello") .nil)) .nil) =
      appF (sanitizeHtml (.cons (.text 2 "hello") .nil)) (sanitizeHtml .nil) :=
  claim5.1 1 "marquee" [] (.cons (.text 2 "hello") .nil) .nil
    (by decide) (by decide) (by decide)

/-- C6: on a kept element, attribute removal iterates a snapshot, so it
removes exactly the attributes rejected by the filter callback — it
equals a single filter pass, keeping every allowed attribute in order —
and nothing else about the node changes: the node, its tag and its
children all remain in place. -/
theorem claim6 : (∀ (tag : String) (attrs : List Attr), noDupKeys attrs = true →
      removeDisallowedAttrs tag attrs =
        attrs.filter (fun a => !(attrDisallowed tag a))) ∧
    (∀ (i : Nat) (tag : String) (attrs : List Attr) (cs rest : HForest),
      isForbidden (.elem i tag attrs cs) = false →
      isAllowedTag (.elem i tag attrs cs) = true →
      (idsF (HForest.cons (.elem i tag attrs cs) rest)).Nodup →
      sanitizeHtml (.cons (.elem i tag attrs cs) rest) =
        .cons (.elem i tag (processAttrs (toLowerStr tag) attrs) (sanitizeHtml cs))
          (sanitizeHtml rest)) := by
  constructor
  · exact removeDisallowedAttrs_eq_filter
  · intro i tag attrs cs rest hf ha h
    have h2 := h
    simp only [idsF, List.nodup_cons, List.nodup_append, List.mem_append, not_or] at h2
    obtain ⟨_, hc, hr, _⟩ := h2
    rw [sanitizeHtml_eq_sanitizeF _ h, sanitizeHtml_eq_sanitizeF cs hc,
      sanitizeHtml_eq_sanitizeF rest hr]
    simp [sanitizeF_cons, sanitizeN, hf, ha, appF]

theorem claim6_witness :
    removeDisallowedAttrs "a"
        [("href", "https://example.com"), ("onclick", "evil()"), ("title", "t")] =
      [("href", "https://example.com"), ("onclick", "evil()"), ("title", "t")].filter
        (fun a => !(attrDisallowed "a" a)) ∧
    sanitizeHtml (.cons (.elem 1 "div" [("onclick", "evil()")]
        (.cons (.text 2 "x") .nil)) .nil) =
      .cons (.elem 1 "div" (processAttrs (toLowerStr "div") [("onclick", "evil()")])
        (sanitizeHtml (.cons (.text 2 "x") .nil))) (sanitizeHtml .nil) :=
  ⟨claim6.1 "a" _ (by decide),
    claim6.2 1 "div" [("onclick", "evil()")] (.cons (.text 2 "x") .nil) .nil
      (by decide) (by decide) (by decide)⟩

/-- C7: an `input` element is classified allowed exactly when its `type`
attribute equals `checkbox`; a checkbox keeps its `checked` and `type`
attributes, while any other `input` is not forbidden but not allowed
either, so its tag is stripped (unwrapped). -/
theorem claim7 : (∀ (i : Nat) (attrs : List Attr) (cs : HForest),
      isAllowedTag (.elem i "input" attrs cs) =
        (getA attrs "type" == some "checkbox")) ∧
    sanitizeHtml (.cons (.elem 1 "input"
        [("type", "checkbox"), ("checked", "")] .nil) .nil) =
      .cons (.elem 1 "input" [("type", "checkbox"), ("checked", "")] .nil) .nil ∧
    sanitizeHtml (.cons (.elem 1 "input" [("type", "text")] .nil) .nil) = .nil ∧
    sanitizeHtml (.cons (.elem 1 "input" [] .nil) .nil) = .nil ∧
    isForbidden (.elem 1 "input" [("type", "text")] .nil) = false :=
  ⟨fun _ _ _ => rfl, rfl, rfl, rfl, rfl⟩

/-- C8: node removals are deferred to two queues applied after the walk,
eliminations first, then unwraps (visible in the definition of
`sanitizeHtml`); applying a queued removal whose node is no longer in the
tree leaves the tree unchanged (the caught exception), processing
continues with the remaining queue, and the pipeline computes the
recursive sanitizer on every tree with unique identities — no anomaly
surfaces to the caller. -/
theorem claim8 : (∀ (i : Nat) (F : HForest), i ∉ idsF F →
      elimF i F = F ∧ unwrapF i F = F) ∧
    (∀ F : HForest, (idsF F).Nodup → sanitizeHtml F = sanitizeF F) :=
  ⟨fun i F h => ⟨elimF_of_notMem i F h, unwrapF_of_notMem i F h⟩,
    sanitizeHtml_eq_sanitizeF⟩

theorem claim8_witness :
    (elimF 99 (.cons (.elem 1 "marquee" []
        (.cons (.elem 2 "script" [] (.cons (.text 3 "evil()") .nil))
          (.cons (.text 4 "safe") .nil))) .nil) =
      .cons (.elem 1 "marquee" []
        (.cons (.elem 2 "script" [] (.cons (.text 3 "evil()") .nil))
          (.cons (.text 4 "safe") .nil))) .nil ∧
      unwrapF 99 (.cons (.elem 1 "marquee" []
        (.cons (.elem 2 "script" [] (.cons (.text 3 "evil()") .nil))
          (.cons (.text 4 "safe") .nil))) .nil) =
      .cons (.elem 1 "marquee" []
        (.cons (.elem 2 "script" [] (.cons (.text 3 "evil()") .nil))
          (.cons (.text 4 "safe") .nil))) .nil) ∧
    sanitizeHtml (.cons (.elem 1 "marquee" []
        (.cons (.elem 2 "script" [] (.cons (.text 3 "evil()") .nil))
          (.cons (.text 4 "safe") .nil))) .nil) =
      sanitizeF (.cons (.elem 1 "marquee" []
        (.cons (.elem 2 "script" [] (.cons (.text 3 "evil()") .nil))
          (.cons (.text 4 "safe") .nil))) .nil) :=
  ⟨claim8.1 99 _ (by decide), claim8.2 _ (by decide)⟩

/-- C9: on a kept anchor the `href` attribute always survives filtering
with its value unchanged, whatever that value is
(`isAllowedAttr "a" "href"` is unconditionally `true`): an anchor with
`href="javascript:alert(1)"` keeps that `href` and receives the forced
`target`/`rel` normalization, and an anchor with
`href="mailto:not-an-email"` keeps that `href` untouched even though the
remainder is not a valid email address. -/
theorem claim9 : isAllowedAttr "a" "href" = true ∧
    (∀ (attrs : List Attr) (v : String), noDupKeys attrs = true →
      getA attrs "href" = some v →
      getA (processAttrs "a" attrs) "href" = some v) ∧
    sanitizeHtml (.cons (.elem 1 "a" [("href", "javascript:alert(1)")] .nil) .nil) =
      .cons (.elem 1 "a" [("href", "javascript:alert(1)"), ("target", "_blank"),
        ("rel", "external noopener noreferrer")] .nil) .nil ∧
    sanitizeHtml (.cons (.elem 1 "a" [("href", "mailto:not-an-email")] .nil) .nil) =
      .cons (.elem 1 "a" [("href", "mailto:not-an-email")] .nil) .nil := by
  refine ⟨rfl, ?_, rfl, rfl⟩
  intro attrs v hnd hv
  simp only [processAttrs]
  rw [getA_normalizeLink_href, getA_rd_keep "a" "href" attrs hnd attrDisallowed_href_a]
  exact hv

theorem claim9_witness :
    getA (processAttrs "a" [("href", "javascript:alert(1)"), ("onclick", "x")])
      "href" = some "javascript:alert(1)" :=
  claim9.2.1 [("href", "javascript:alert(1)"), ("onclick", "x")]
    "javascript:alert(1)" (by decide) (by decide)

/-- C10: `target` is in no static per-tag allow list and is not an
`href`/`src` name, so every input-supplied `target` is stripped by the
attribute filter on every kept element; consequently a kept anchor whose
post-filter `href` is absent or starts with `mailto:` carries no `target`
in its processed attributes, whatever the input supplied. -/
theorem claim10 : (∀ tag : String, isAllowedAttr tag "target" = false) ∧
    (∀ (tag : String) (attrs : List Attr),
      getA (removeDisallowedAttrs tag attrs) "target" = none) ∧
    (∀ attrs : List Attr, noDupKeys attrs = true →
      ((getA (removeDisallowedAttrs "a" attrs) "href" = none →
          getA (processAttrs "a" attrs) "target" = none) ∧
        (∀ h0, getA (removeDisallowedAttrs "a" attrs) "href" = some h0 →
          startsWithStr h0 "mailto:" = true →
          getA (processAttrs "a" attrs) "target" = none))) := by
  refine ⟨isAllowedAttr_target, getA_removeDisallowed_target, ?_⟩
  intro attrs _hnd
  constructor
  · intro hnone
    simp only [processAttrs]
    rw [normalizeLink_a_none _ hnone]
    exact getA_removeDisallowed_target "a" attrs
  · intro h0 hh hsw
    simp only [processAttrs]
    rw [normalizeLink_a_mailto _ h0 hh hsw]
    exact getA_removeDisallowed_target "a" attrs

theorem claim10_witness :
    getA (processAttrs "a" [("target", "_self"), ("title", "t")]) "target" = none ∧
    getA (processAttrs "a" [("href", "mailto:user@example.com"), ("target", "_self")])
      "target" = none :=
  ⟨(claim10.2.2 [("target", "_self"), ("title", "t")] (by decide)).1 (by decide),
    (claim10.2.2 [("href", "mailto:user@example.com"), ("target", "_self")]
      (by decide)).2 "mailto:user@example.com" (by decide) (by decide)⟩

end SanitizeJs
